import Mathlib

/-!
Verification model of the fizz AEAD kernel
(`src/fizz/crypto/aead/OpenSSLEVPCipher.cpp`) and the server handshake
state data (`src/fizz/server/State.h`).

A `folly::IOBuf` chain is modelled as a list of fragments; each fragment
carries its visible bytes, its tailroom, and whether the underlying
allocation is shared.  The OpenSSL EVP cipher is modelled abstractly: a
keystream function applied bytewise with XOR (AES-GCM and
ChaCha20-Poly1305 are both stream transforms whose ciphertext length
equals the plaintext length) together with an abstract tag function over
the associated data and the ciphertext.  An EVP context carries the
keystream position, the block-mode input buffer, the accumulated
associated data, and a trace of the operations performed, so that
ordering claims (SetTag before/after the update phase) are statable.

Helper routines of the repository that are not under `src/`
(`transformBuffer`, `transformBufferBlocks`, `trimBytes`,
`kMaxSharedInChain`) are modelled from the spec, as marked on each
definition.
-/

namespace Fizz

/-- One buffer of a `folly::IOBuf` chain: the visible data bytes, the
tailroom behind them, and whether the underlying allocation is shared
(`isSharedOne`). -/
structure Frag where
  data : List Nat
  tailroom : Nat
  shared : Bool
deriving DecidableEq

/-- An IOBuf chain: the buffers in chain order. -/
abbrev Chain := List Frag

/-- All bytes of a chain, in order. -/
def chainBytes (c : Chain) : List Nat :=
  (c.map Frag.data).flatten

/-- `computeChainDataLength`: total number of data bytes in the chain. -/
def chainLength (c : Chain) : Nat :=
  (chainBytes c).length

/-- `isShared()` on a chain: true when any buffer of the chain is shared. -/
def chainIsShared (c : Chain) : Bool :=
  c.any Frag.shared

/-- Number of buffers in the chain that report `isSharedOne()`. -/
def countShared (c : Chain) : Nat :=
  (c.filter Frag.shared).length

/-- The shape of a fragment: data length, tailroom, shared flag.  Writing
into the data region of a chain preserves the shapes of its fragments. -/
def fragShape (f : Frag) : Nat × Nat × Bool :=
  (f.data.length, f.tailroom, f.shared)

/-- Shapes of all fragments of a chain. -/
def chainShape (c : Chain) : List (Nat × Nat × Bool) :=
  c.map fragShape

/-- `std::numeric_limits<int>::max()`: the 31-bit limit checked before
every `EVP_*Update` call. -/
def intMax : Nat := 2147483647

/-- Abstract model of an OpenSSL EVP AEAD cipher keyed with a fixed key
and IV.  `ks` is the keystream (applied bytewise with XOR), `mkTag` the
authentication-tag function over associated data, ciphertext and tag
length, and `libOk` models whether the library calls succeed (false
makes every EVP call report failure). -/
structure Cipher where
  ks : Nat → Nat
  mkTag : List Nat → List Nat → Nat → List Nat
  mkTag_length : ∀ a c n, (mkTag a c n).length = n
  libOk : Bool

/-- Apply the keystream starting at position `p` to a byte list (both
`EVP_EncryptUpdate` and `EVP_DecryptUpdate` body transforms; XOR makes
decryption the same transform as encryption). -/
def applyKs (C : Cipher) : Nat → List Nat → List Nat
  | _, [] => []
  | p, b :: bs => (b ^^^ C.ks p) :: applyKs C (p + 1) bs

/-- Trace events of the EVP calls made by the kernel, in order. -/
inductive Ev where
  | init : Ev
  | adUpd : Ev
  | upd (lin lw : Nat) : Ev
  | setTag : Ev
  | fin (w : Nat) : Ev
deriving DecidableEq

/-- Errors: `tooBig` models the `throw std::runtime_error("... too much
...")` paths, `lib` a cipher-library failure, `ub` undefined behavior
(reading an uninitialized `folly::IOBuf*`). -/
inductive Err where
  | tooBig : Err
  | lib : Err
  | ub : Err
deriving DecidableEq

/-- The EVP cipher context state: keystream position `pos` (bytes whose
output has been produced), block-mode input buffer `buf` (consumed but
not yet written), accumulated associated data `ad`, and the event
trace `evs`. -/
structure Ctx where
  pos : Nat
  buf : List Nat
  ad : List Nat
  evs : List Ev
deriving DecidableEq

/-- Append one event to the context trace. -/
def addEv (ctx : Ctx) (e : Ev) : Ctx :=
  { ctx with evs := ctx.evs ++ [e] }

/-- One `EVP_EncryptUpdate`/`EVP_DecryptUpdate` call of the block-mode
lambdas of `encFuncBlocks`/`decFuncBlocks` (OpenSSLEVPCipher.cpp:47-60,
126-138): check the 31-bit limit and the library result, flush all
complete 16-byte blocks of `buf ++ chunk`, and buffer the remainder. -/
def blockUpdate (C : Cipher) (ctx : Ctx) (chunk : List Nat) :
    Except Err (Ctx × List Nat) :=
  if chunk.length > intMax then .error .tooBig
  else if !C.libOk then .error .lib
  else
    let total := ctx.buf ++ chunk
    let n := 16 * (total.length / 16)
    let emit := applyKs C ctx.pos (total.take n)
    .ok ({ ctx with
            pos := ctx.pos + n
            buf := total.drop n
            evs := ctx.evs ++ [.upd chunk.length n] }, emit)

/-- One `EVP_EncryptUpdate`/`EVP_DecryptUpdate` call of the stream-mode
lambdas of `encFunc`/`decFunc` (OpenSSLEVPCipher.cpp:89-98, 169-178):
output length always equals input length. -/
def streamUpdate (C : Cipher) (ctx : Ctx) (chunk : List Nat) :
    Except Err (Ctx × List Nat) :=
  if chunk.length > intMax then .error .tooBig
  else if !C.libOk then .error .lib
  else
    .ok ({ ctx with
            pos := ctx.pos + chunk.length
            evs := ctx.evs ++ [.upd chunk.length chunk.length] },
         applyKs C ctx.pos chunk)

/-- Run a sequence of update calls, concatenating the emitted output. -/
def runUpdates (upd : Ctx → List Nat → Except Err (Ctx × List Nat)) :
    Ctx → List (List Nat) → Except Err (Ctx × List Nat)
  | ctx, [] => .ok (ctx, [])
  | ctx, c :: cs => do
    let r1 ← upd ctx c
    let r2 ← runUpdates upd r1.1 cs
    .ok (r2.1, r1.2 ++ r2.2)

/-- Modelled from the spec: `transformBufferBlocks<16>` (in
`fizz/crypto/aead/IOBufUtil.h`, not under `src/`) feeds the chained
input to the lambda "in 16-byte input chunks so that `EncryptUpdate`
writes ≤ input length bytes".  `chunks16` is that chunking of the input
bytes: successive 16-byte chunks, the last one possibly short. -/
def chunks16 : List Nat → List (List Nat)
  | [] => []
  | b :: bs => ((b :: bs).take 16) :: chunks16 ((b :: bs).drop 16)
termination_by l => l.length
decreasing_by simp; omega

/-- Modelled from the spec: `transformBuffer` (in
`fizz/crypto/aead/IOBufUtil.h`, not under `src/`) calls the lambda once
per contiguous input fragment. -/
def fragChunks (c : Chain) : List (List Nat) :=
  c.map Frag.data

/-- Overwrite the data region of a chain with `bs`, starting `off` bytes
into the data; fragment boundaries, tailroom and shared flags are
untouched (the output cursor of the transform writes over the existing
data region). -/
def writeAt : Chain → Nat → List Nat → Chain
  | [], _, _ => []
  | f :: fs, off, bs =>
    if off ≥ f.data.length then f :: writeAt fs (off - f.data.length) bs
    else
      { f with data := f.data.take off ++ bs.take (f.data.length - off) ++
          f.data.drop (off + (bs.take (f.data.length - off)).length) } ::
        writeAt fs 0 (bs.drop (f.data.length - off))

/-- Remaining bytes in the buffer the cursor currently points into
(`folly::io::Cursor::length()` after skipping `off` bytes of data): the
cursor advances eagerly past exhausted buffers. -/
def cursorFragRemaining : Chain → Nat → Nat
  | [], _ => 0
  | f :: fs, off =>
    if off < f.data.length then f.data.length - off
    else cursorFragRemaining fs (off - f.data.length)

/-- `lastBuf->append(tagLen)` followed by writing the tag at the tail of
the last buffer of the chain (OpenSSLEVPCipher.cpp:256-266). -/
def appendToLast : Chain → List Nat → Chain
  | [], _ => []
  | [f], t => [{ f with data := f.data ++ t, tailroom := f.tailroom - t.length }]
  | f :: f' :: fs, t => f :: appendToLast (f' :: fs) t

/-- Tailroom of the last buffer of the chain (`output->prev()->tailroom()`). -/
def lastTailroom (c : Chain) : Nat :=
  (c.getLast?.getD ⟨[], 0, false⟩).tailroom

/-- Helper for `trimBytes`, on the reversed chain: remove `n` bytes of
data walking from the tail (`trimEnd` per buffer, which moves the bytes
into tailroom; fully trimmed buffers stay in the chain with length 0). -/
def trimRev : Chain → Nat → Chain
  | [], _ => []
  | f :: fs, n =>
    if n = 0 then f :: fs
    else if f.data.length ≤ n then
      { f with data := [], tailroom := f.tailroom + f.data.length } ::
        trimRev fs (n - f.data.length)
    else
      { f with data := f.data.take (f.data.length - n), tailroom := f.tailroom + n } :: fs

/-- Modelled from the spec: `trimBytes` (in
`fizz/crypto/aead/IOBufUtil.cpp`, not under `src/`) trims "the last
`tag_length` bytes from the ciphertext chain into a mutable buffer".
Returns the trimmed chain and the trimmed-off bytes. -/
def trimChain (c : Chain) (n : Nat) : Chain :=
  (trimRev c.reverse n).reverse

def trimBytes (c : Chain) (n : Nat) : Chain × List Nat :=
  (trimChain c n, (chainBytes c).drop (chainLength c - n))

/-- Modelled from the spec: `kMaxSharedInChain` (declared in
`fizz/crypto/aead/OpenSSLEVPCipher.h`, not under `src/`) is the "small
constant, e.g. 4" bounding how many shared fragments are unshared
individually. -/
def kMaxSharedInChain : Nat := 4

/-- An unshared exact-length copy of a fragment
(`folly::IOBuf::copyBuffer(data, length)`: capacity = length, so no
tailroom). -/
def unshareFrag (f : Frag) : Frag :=
  ⟨f.data, 0, false⟩

/-- `fixupSharedBuffer` (OpenSSLEVPCipher.cpp:279-332).  Counts the
shared buffers of the chain (breaking past `kMaxSharedInChain`), then:
zero shared — operate in place; more than `kMaxSharedInChain` shared —
allocate a single fresh output chain of the full input length
(contents of a fresh allocation modelled as zeros) and operate out of
place; otherwise unshare the collected fragments by splicing in
exact-length copies.  The C++ unshare loop runs over all
`chainedBufs.size() = kMaxSharedInChain` array slots although only
`numShared` of them were initialized; when `numShared <
kMaxSharedInChain` it dereferences an uninitialized `folly::IOBuf*`,
which is undefined behavior, modelled as `none`.  Returns
`(input, output)`. -/
def fixupSharedBuffer (encrypted : Chain) (inputLength : Nat) :
    Option (Chain × Chain) :=
  let numShared := countShared encrypted
  if numShared = 0 then
    some (encrypted, encrypted)
  else if numShared ≤ kMaxSharedInChain then
    if numShared = kMaxSharedInChain then
      let fixed := encrypted.map (fun f => if f.shared then unshareFrag f else f)
      some (fixed, fixed)
    else
      none
  else
    some (encrypted, [⟨List.replicate inputLength 0, 0, false⟩])

/-- The associated-data loop shared by `evpEncrypt` and `evpDecrypt`
(OpenSSLEVPCipher.cpp:222-237, 361-376): for each fragment, check the
31-bit limit, then `EVP_*Update` with null output accumulates the
associated data into the context. -/
def adLoop (C : Cipher) : Ctx → Chain → Except Err Ctx
  | ctx, [] => .ok ctx
  | ctx, f :: fs =>
    if f.data.length > intMax then .error .tooBig
    else if !C.libOk then .error .lib
    else adLoop C { ctx with ad := ctx.ad ++ f.data, evs := ctx.evs ++ [.adUpd] } fs

/-- The optional associated-data chain, as passed by pointer. -/
def adUpdates (C : Cipher) (ctx : Ctx) : Option Chain → Except Err Ctx
  | none => .ok ctx
  | some ad => adLoop C ctx ad

/-- `encFuncBlocks` (OpenSSLEVPCipher.cpp:37-78): run the 16-byte-chunk
updates, then `EVP_EncryptFinal_ex` may write the buffered trailing
bytes (at most one block): directly at the output cursor when the
current buffer has room (`numBuffered ≤ numLeftInOutput`), else into a
stack block pushed through the cursor.  Both branches deposit the same
bytes at the same offsets of the output chain, so both are `writeAt`. -/
def encFuncBlocks (C : Cipher) (ctx : Ctx) (plaintext output : Chain) :
    Except Err (Ctx × Chain) := do
  let bs := chainBytes plaintext
  let r ← runUpdates (blockUpdate C) ctx (chunks16 bs)
  let totalInput := bs.length
  let totalWritten := r.2.length
  let numBuffered := totalInput - totalWritten
  let out1 := writeAt output 0 r.2
  let numLeftInOutput := cursorFragRemaining out1 totalWritten
  if !C.libOk then .error .lib
  else
    let e := applyKs C r.1.pos r.1.buf
    let ctx2 := { r.1 with
                  pos := r.1.pos + e.length
                  buf := []
                  evs := r.1.evs ++ [.fin e.length] }
    if numBuffered ≤ numLeftInOutput then
      .ok (ctx2, writeAt out1 totalWritten e)
    else
      .ok (ctx2, writeAt out1 totalWritten e)

/-- `encFunc` (OpenSSLEVPCipher.cpp:80-105): per-fragment stream
updates, then `EVP_EncryptFinal_ex`, which writes nothing for a stream
cipher. -/
def encFunc (C : Cipher) (ctx : Ctx) (plaintext output : Chain) :
    Except Err (Ctx × Chain) := do
  let r ← runUpdates (streamUpdate C) ctx (fragChunks plaintext)
  if !C.libOk then .error .lib
  else .ok (addEv r.1 (.fin 0), writeAt output 0 r.2)

/-- `decFuncBlocks` (OpenSSLEVPCipher.cpp:107-157): `SetTag` first, then
the 16-byte-chunk updates, then `EVP_DecryptFinal_ex` checks the tag
(returning the authentication result) and on success writes the
buffered trailing bytes. -/
def decFuncBlocks (C : Cipher) (ctx : Ctx) (ciphertext output : Chain)
    (tagOut : List Nat) : Except Err (Bool × Ctx × Chain) := do
  if !C.libOk then .error .lib
  else
    let ctxA := addEv ctx .setTag
    let bs := chainBytes ciphertext
    let r ← runUpdates (blockUpdate C) ctxA (chunks16 bs)
    let totalInput := bs.length
    let totalWritten := r.2.length
    let numBuffered := totalInput - totalWritten
    let out1 := writeAt output 0 r.2
    let numLeftInOutput := cursorFragRemaining out1 totalWritten
    let auth := C.mkTag r.1.ad bs tagOut.length == tagOut
    let e := applyKs C r.1.pos r.1.buf
    let ctx2 := { r.1 with
                  pos := r.1.pos + e.length
                  buf := []
                  evs := r.1.evs ++ [.fin e.length] }
    if numBuffered ≤ numLeftInOutput then
      .ok (auth, ctx2, if auth then writeAt out1 totalWritten e else out1)
    else if !auth then
      .ok (false, ctx2, out1)
    else
      .ok (true, ctx2, writeAt out1 totalWritten e)

/-- `decFunc` (OpenSSLEVPCipher.cpp:159-191): per-fragment stream
updates first, then `SetTag`, then `EVP_DecryptFinal_ex` checks the tag
and writes nothing. -/
def decFunc (C : Cipher) (ctx : Ctx) (ciphertext output : Chain)
    (tagOut : List Nat) : Except Err (Bool × Ctx × Chain) := do
  let r ← runUpdates (streamUpdate C) ctx (fragChunks ciphertext)
  if !C.libOk then .error .lib
  else
    let ctx2 := addEv r.1 .setTag
    let auth := C.mkTag ctx2.ad (chainBytes ciphertext) tagOut.length == tagOut
    .ok (auth, addEv ctx2 (.fin 0), writeAt output 0 r.2)

/-- Result of `evpEncrypt`: the returned ciphertext chain, plus the
chain as it stood before tag placement (`preTag`), whether encryption
ran in place (`inPlace`, i.e. `output = std::move(plaintext)`), whether
the tag needed a fresh buffer (`tagAllocated`), and the EVP event
trace. -/
structure EncResult where
  chain : Chain
  preTag : Chain
  inPlace : Bool
  tagAllocated : Bool
  evs : List Ev
deriving DecidableEq

/-- `evpEncrypt` (OpenSSLEVPCipher.cpp:193-269).  If the plaintext chain
is shared, allocate a fresh output of `headroom + inputLength + tagLen`
bytes, advance the headroom and append `inputLength` (leaving `tagLen`
tailroom) and encrypt out of place; otherwise encrypt in place.  After
`Init`, the associated-data loop and the block/stream transform,
retrieve the tag: into the last buffer's tailroom when it is at least
`tagLen`, else into a fresh appended `tagLen`-byte buffer. -/
def evpEncrypt (C : Cipher) (plaintext : Chain) (associatedData : Option Chain)
    (tagLen headroom : Nat) (useBlockOps : Bool) : Except Err EncResult := do
  let inputLength := chainLength plaintext
  let inPlace := !chainIsShared plaintext
  let output : Chain :=
    if chainIsShared plaintext then [⟨List.replicate inputLength 0, tagLen, false⟩]
    else plaintext
  let input : Chain := plaintext
  if !C.libOk then .error .lib
  else
    let ctx0 : Ctx := ⟨0, [], [], [.init]⟩
    let ctx1 ← adUpdates C ctx0 associatedData
    let r ← if useBlockOps then encFuncBlocks C ctx1 input output
            else encFunc C ctx1 input output
    if !C.libOk then .error .lib
    else
      let tag := C.mkTag r.1.ad (chainBytes r.2) tagLen
      if lastTailroom r.2 < tagLen then
        .ok ⟨r.2 ++ [⟨tag, 0, false⟩], r.2, inPlace, true, r.1.evs⟩
      else
        .ok ⟨appendToLast r.2 tag, r.2, inPlace, false, r.1.evs⟩

/-- Result of `evpDecrypt`: the plaintext chain on success, `none` on
authentication failure, plus the EVP event trace. -/
structure DecResult where
  plaintext : Option Chain
  evs : List Ev
deriving DecidableEq

/-- `evpDecrypt` (OpenSSLEVPCipher.cpp:334-385).  A ciphertext shorter
than the tag yields `none` immediately (no EVP call is made).
Otherwise trim the last `tagLen` bytes into the tag buffer, fix up
shared buffers, `Init`, feed the associated data, run the block/stream
transform, and map the authentication result to `some`/`none`. -/
def evpDecrypt (C : Cipher) (ciphertext : Chain) (associatedData : Option Chain)
    (tagLen : Nat) (useBlockOps : Bool) : Except Err DecResult := do
  let inputLength0 := chainLength ciphertext
  if inputLength0 < tagLen then .ok ⟨none, []⟩
  else
    let inputLength := inputLength0 - tagLen
    let t := trimBytes ciphertext tagLen
    match fixupSharedBuffer t.1 inputLength with
    | none => .error .ub
    | some io =>
      if !C.libOk then .error .lib
      else
        let ctx0 : Ctx := ⟨0, [], [], [.init]⟩
        let ctx1 ← adUpdates C ctx0 associatedData
        let r ← if useBlockOps then decFuncBlocks C ctx1 io.1 io.2 t.2
                else decFunc C ctx1 io.1 io.2 t.2
        if r.1 then .ok ⟨some r.2.2, r.2.1.evs⟩
        else .ok ⟨none, r.2.1.evs⟩

/-- The bytes of the optional associated-data chain. -/
def adBytes : Option Chain → List Nat
  | none => []
  | some a => chainBytes a

/-- A concrete cipher instance used for witnesses and counterexamples. -/
def testCipher : Cipher where
  ks := fun p => (7 * p + 3) % 256
  mkTag := fun a c n => (List.range n).map (fun i => (a.sum + 2 * c.sum + i) % 256)
  mkTag_length := by intro a c n; simp
  libOk := true

/-- A concrete cipher instance whose library calls all fail. -/
def brokenCipher : Cipher where
  ks := fun p => (7 * p + 3) % 256
  mkTag := fun a c n => (List.range n).map (fun i => (a.sum + 2 * c.sum + i) % 256)
  mkTag_length := by intro a c n; simp
  libOk := false

/-! ## Server handshake state (`src/fizz/server/State.h`) -/

namespace Server

/-- `StateEnum` (State.h:26-38; the `NUM_STATES` sentinel is a count,
not a state). -/
inductive StateEnum where
  | Uninitialized | ExpectingClientHello | ExpectingCertificate
  | ExpectingCertificateVerify | AcceptingEarlyData | ExpectingFinished
  | AcceptingData | ExpectingCloseNotify | Closed | Error
deriving DecidableEq

/-- `PskType` (declared in `fizz/protocol/Types.h`, not under `src/`);
values from the spec: `NotAttempted|Rejected|Resumption|External`. -/
inductive PskType where
  | NotAttempted | Rejected | Resumption | External
deriving DecidableEq

/-- `KeyExchangeType`; values from the spec: `None|Normal|HelloRetry`. -/
inductive KeyExchangeType where
  | None | Normal | HelloRetry
deriving DecidableEq

/-- `EarlyDataType`; values from the spec:
`NotAttempted|Rejected|Accepted|Replay`. -/
inductive EarlyDataType where
  | NotAttempted | Rejected | Accepted | Replay
deriving DecidableEq

/-- `ReplayCacheResult`; values from the spec's replay-cache interface:
`Accepted | Duplicate | Unknown`. -/
inductive ReplayCacheResult where
  | Accepted | Duplicate | Unknown
deriving DecidableEq

/-- `PskKeyExchangeMode` (RFC 8446). -/
inductive PskKeyExchangeMode where
  | psk_ke | psk_dhe_ke
deriving DecidableEq

/-- Opaque payload types (their internals are outside `src/`). -/
abbrev ProtocolVersion := Nat
abbrev CipherSuite := Nat
abbrev NamedGroup := Nat
abbrev SignatureScheme := Nat
abbrev Buf := List Nat

/-- The server handshake `State` (State.h:392-436), restricted to the
fields the claims speak about.  Every default mirrors the C++ member
initializers: `state_{StateEnum::Uninitialized}`, `folly::Optional`
fields default-constructed to `none`, the `resumptionMasterSecret_`
vector empty, the record-layer/secret smart pointers null. -/
structure State where
  state : StateEnum := .Uninitialized
  version : Option ProtocolVersion := none
  cipher : Option CipherSuite := none
  group : Option NamedGroup := none
  sigScheme : Option SignatureScheme := none
  pskType : Option PskType := none
  pskMode : Option PskKeyExchangeMode := none
  keyExchangeType : Option KeyExchangeType := none
  earlyDataType : Option EarlyDataType := none
  replayCacheResult : Option ReplayCacheResult := none
  clientHandshakeSecret : Option Buf := none
  alpn : Option String := none
  clientClockSkew : Option Int := none
  handshakeTime : Option Nat := none
  earlyExporterMasterSecret : Option Buf := none
  exporterMasterSecret : Option Buf := none
  unverifiedCertChain : Option (List Buf) := none
  clientCert : Option Buf := none
  resumptionMasterSecret : List Nat := []
  handshakeReadRecordLayer : Option Nat := none
deriving DecidableEq

/-- A default-constructed `State`. -/
def initialState : State := {}

/-- Modelled from the spec: negotiated parameters are "each populated
exactly once at the transition that decides it; never cleared"; a field
that is already `some` is never overwritten. -/
def setOnce {α : Type} (cur upd : Option α) : Option α :=
  cur <|> upd

/-- Modelled from the spec: the outcome of the ClientHello negotiation
(spec §4.4 "Negotiation within ClientHello handling"), delivered with
the ClientHello event; the protocol-message parsing that produces it is
not under `src/`. -/
structure ChloOutcome where
  version : ProtocolVersion
  cipher : CipherSuite
  group : Option NamedGroup
  sigScheme : Option SignatureScheme
  pskType : PskType
  pskMode : Option PskKeyExchangeMode
  keyExchangeType : KeyExchangeType
  earlyDataType : EarlyDataType
  alpn : Option String
  replayCacheResult : Option ReplayCacheResult
  clientHandshakeSecret : Buf
  clockSkew : Option Int
  hsTime : Nat
  earlyExporter : Option Buf
  requestClientAuth : Bool
deriving DecidableEq

/-- Modelled from the spec: the event alphabet of the handshake state
machine (spec §4.4), with protocol-message contents abstracted to the
negotiation outcomes that decide the transitions. -/
inductive Event where
  | accept : Event
  | clientHello (o : ChloOutcome) : Event
  | helloRetryRequest : Event
  | earlyAppData : Event
  | endOfEarlyData : Event
  | certificate (chain : List Buf) : Event
  | certificateVerify (ok : Bool) : Event
  | finished (ok : Bool) (exporter : Buf) (resumption : List Nat) : Event
  | appWrite | keyUpdate | appClose | closeNotify | alert : Event
deriving DecidableEq

/-- Modelled from the spec: the handshake transition function (spec §4.4
transition table; the implementation, `fizz/server/ServerProtocol.cpp`,
is not under `src/`).  Negotiated parameters are written with
`setOnce`; unexpected events and alerts make the phase `Error`;
`Closed` and `Error` are terminal. -/
def step (s : State) (e : Event) : State :=
  match s.state, e with
  | .Closed, _ => s
  | .Error, _ => s
  | .Uninitialized, .accept => { s with state := .ExpectingClientHello }
  | .ExpectingClientHello, .helloRetryRequest =>
      { s with keyExchangeType := setOnce s.keyExchangeType (some .HelloRetry) }
  | .ExpectingClientHello, .clientHello o =>
      { s with
        state :=
          if o.earlyDataType = .Accepted then .AcceptingEarlyData
          else if o.requestClientAuth then .ExpectingCertificate
          else .ExpectingFinished
        version := setOnce s.version (some o.version)
        cipher := setOnce s.cipher (some o.cipher)
        group := setOnce s.group o.group
        sigScheme := setOnce s.sigScheme o.sigScheme
        pskType := setOnce s.pskType (some o.pskType)
        pskMode := setOnce s.pskMode o.pskMode
        keyExchangeType := setOnce s.keyExchangeType (some o.keyExchangeType)
        earlyDataType := setOnce s.earlyDataType (some o.earlyDataType)
        alpn := setOnce s.alpn o.alpn
        replayCacheResult := setOnce s.replayCacheResult o.replayCacheResult
        clientHandshakeSecret :=
          setOnce s.clientHandshakeSecret (some o.clientHandshakeSecret)
        clientClockSkew := setOnce s.clientClockSkew o.clockSkew
        handshakeTime := setOnce s.handshakeTime (some o.hsTime)
        earlyExporterMasterSecret :=
          setOnce s.earlyExporterMasterSecret o.earlyExporter
        handshakeReadRecordLayer :=
          if o.earlyDataType = .Accepted then some 0
          else s.handshakeReadRecordLayer }
  | .AcceptingEarlyData, .earlyAppData => s
  | .AcceptingEarlyData, .endOfEarlyData =>
      { s with state := .ExpectingFinished, handshakeReadRecordLayer := none }
  | .ExpectingCertificate, .certificate chain =>
      if chain.isEmpty then { s with state := .Error }
      else { s with state := .ExpectingCertificateVerify,
                    unverifiedCertChain := some chain }
  | .ExpectingCertificateVerify, .certificateVerify ok =>
      if ok then
        { s with state := .ExpectingFinished
                 clientCert := (s.unverifiedCertChain.getD []).head?
                 unverifiedCertChain := none }
      else { s with state := .Error }
  | .ExpectingFinished, .finished ok exporter resumption =>
      if ok then
        { s with state := .AcceptingData
                 exporterMasterSecret := setOnce s.exporterMasterSecret (some exporter)
                 resumptionMasterSecret := resumption }
      else { s with state := .Error }
  | .AcceptingData, .appWrite => s
  | .AcceptingData, .keyUpdate => s
  | .AcceptingData, .appClose => { s with state := .ExpectingCloseNotify }
  | .AcceptingData, .closeNotify => { s with state := .Closed }
  | .ExpectingCloseNotify, .closeNotify => { s with state := .Closed }
  | _, _ => { s with state := .Error }

end Server

/-! ## Basic lemmas -/

theorem applyKs_length (C : Cipher) (p : Nat) (bs : List Nat) :
    (applyKs C p bs).length = bs.length := by
  induction bs generalizing p with
  | nil => rfl
  | cons b bs ih => simp [applyKs, ih]

theorem applyKs_append (C : Cipher) (p : Nat) (as bs : List Nat) :
    applyKs C p (as ++ bs) = applyKs C p as ++ applyKs C (p + as.length) bs := by
  induction as generalizing p with
  | nil => simp [applyKs]
  | cons a as ih =>
    simp [applyKs, ih, Nat.add_comm, Nat.add_assoc, Nat.add_left_comm]

theorem applyKs_applyKs (C : Cipher) (p : Nat) (bs : List Nat) :
    applyKs C p (applyKs C p bs) = bs := by
  induction bs generalizing p with
  | nil => rfl
  | cons b bs ih => simp [applyKs, ih, Nat.xor_cancel_right]

theorem applyKs_take (C : Cipher) (p n : Nat) (bs : List Nat) :
    (applyKs C p bs).take n = applyKs C p (bs.take n) := by
  induction bs generalizing p n with
  | nil => simp [applyKs]
  | cons b bs ih =>
    cases n with
    | zero => simp [applyKs]
    | succ n => simp [applyKs, ih]

theorem applyKs_drop (C : Cipher) (p n : Nat) (bs : List Nat) :
    (applyKs C p bs).drop n = applyKs C (p + n) (bs.drop n) := by
  induction bs generalizing p n with
  | nil => simp [applyKs]
  | cons b bs ih =>
    cases n with
    | zero => simp [applyKs]
    | succ n =>
      simp only [applyKs, List.drop_succ_cons, ih]
      congr 1
      omega

theorem chunks16_flatten (bs : List Nat) : (chunks16 bs).flatten = bs := by
  induction bs using chunks16.induct with
  | case1 => rw [chunks16]; rfl
  | case2 b bs ih =>
    rw [chunks16, List.flatten_cons, ih, List.take_append_drop]

theorem chunks16_length_le (bs : List Nat) :
    ∀ c ∈ chunks16 bs, c.length ≤ 16 := by
  induction bs using chunks16.induct with
  | case1 => intro c hc; simp [chunks16] at hc
  | case2 b bs ih =>
    intro c hc
    rw [chunks16] at hc
    rcases List.mem_cons.mp hc with h | h
    · subst h; simp
    · exact ih c h

theorem chainBytes_cons (f : Frag) (fs : Chain) :
    chainBytes (f :: fs) = f.data ++ chainBytes fs := by
  simp [chainBytes]

theorem chainBytes_append (c d : Chain) :
    chainBytes (c ++ d) = chainBytes c ++ chainBytes d := by
  simp [chainBytes]

theorem chainLength_cons (f : Frag) (fs : Chain) :
    chainLength (f :: fs) = f.data.length + chainLength fs := by
  simp [chainLength, chainBytes_cons]

theorem chainShape_writeAt (c : Chain) (off : Nat) (bs : List Nat) :
    chainShape (writeAt c off bs) = chainShape c := by
  induction c generalizing off bs with
  | nil => rfl
  | cons f fs ih =>
    rw [writeAt]
    by_cases h : off ≥ f.data.length
    · rw [if_pos h]
      show fragShape f :: chainShape (writeAt fs _ _) = fragShape f :: chainShape fs
      rw [ih]
    · rw [if_neg h]
      show fragShape _ :: chainShape (writeAt fs _ _) = fragShape f :: chainShape fs
      rw [ih]
      simp only [fragShape, List.cons.injEq, Prod.mk.injEq, and_self, and_true,
        List.length_append, List.length_take, List.length_drop]
      omega

theorem chainLength_eq_shape_sum (c : Chain) :
    chainLength c = ((chainShape c).map Prod.fst).sum := by
  induction c with
  | nil => rfl
  | cons f fs ih => simp [chainLength_cons, chainShape, fragShape, ih]

theorem chainLength_writeAt (c : Chain) (off : Nat) (bs : List Nat) :
    chainLength (writeAt c off bs) = chainLength c := by
  rw [chainLength_eq_shape_sum, chainLength_eq_shape_sum, chainShape_writeAt]

theorem writeAt_nil_bytes (c : Chain) (off : Nat) : writeAt c off [] = c := by
  induction c generalizing off with
  | nil => rfl
  | cons f fs ih =>
    rw [writeAt]
    by_cases h : off ≥ f.data.length
    · rw [if_pos h, ih]
    · rw [if_neg h]
      simp [ih, List.take_append_drop]

theorem chainBytes_writeAt_zero (c : Chain) (bs : List Nat) :
    chainBytes (writeAt c 0 bs) =
      bs.take (chainLength c) ++ (chainBytes c).drop bs.length := by
  induction c generalizing bs with
  | nil => simp [writeAt, chainBytes, chainLength]
  | cons f fs ih =>
    obtain ⟨D, tr, sh⟩ := f
    rw [writeAt]
    by_cases h : (0 : Nat) ≥ D.length
    · rw [if_pos h]
      have hf : D = [] := List.length_eq_zero.mp (Nat.le_zero.mp h)
      subst hf
      simp [chainBytes_cons, chainLength_cons, ih]
    · rw [if_neg h]
      rw [chainBytes_cons, chainBytes_cons, chainLength_cons, ih]
      simp only [List.take_zero, List.nil_append, List.drop_zero, Nat.zero_add,
        List.length_take, List.length_drop, Nat.sub_zero]
      rw [List.take_add, List.drop_append_eq_append_drop]
      by_cases hb : D.length ≤ bs.length
      · have h1 : D.drop (min D.length bs.length) = [] :=
          List.drop_eq_nil_of_le (by omega)
        have h2 : D.drop bs.length = [] := List.drop_eq_nil_of_le hb
        simp [h1, h2]
      · have h1 : bs.drop D.length = [] := List.drop_eq_nil_of_le (by omega)
        have h2 : min D.length bs.length = bs.length := by omega
        have h3 : bs.take D.length = bs := List.take_of_length_le (by omega)
        simp [h1, h2, h3]

theorem writeAt_writeAt (c : Chain) (bs1 bs2 : List Nat) :
    writeAt (writeAt c 0 bs1) bs1.length bs2 = writeAt c 0 (bs1 ++ bs2) := by
  induction c generalizing bs1 bs2 with
  | nil => rfl
  | cons f fs ih =>
    obtain ⟨D, tr, sh⟩ := f
    by_cases h : (0 : Nat) ≥ D.length
    · have hf : D = [] := List.length_eq_zero.mp (Nat.le_zero.mp h)
      subst hf
      have inner : writeAt (⟨[], tr, sh⟩ :: fs) 0 bs1 =
          ⟨[], tr, sh⟩ :: writeAt fs 0 bs1 := by
        rw [writeAt, if_pos h]
        rfl
      have inner2 : writeAt (⟨[], tr, sh⟩ :: fs) 0 (bs1 ++ bs2) =
          ⟨[], tr, sh⟩ :: writeAt fs 0 (bs1 ++ bs2) := by
        rw [writeAt, if_pos h]
        rfl
      rw [inner, inner2, writeAt,
        if_pos (show bs1.length ≥ (Frag.mk [] tr sh).data.length by simp)]
      simpa using congrArg (Frag.mk [] tr sh :: ·) (ih bs1 bs2)
    · have hD : 0 < D.length := by omega
      have inner : writeAt (⟨D, tr, sh⟩ :: fs) 0 bs1 =
          ⟨bs1.take D.length ++ D.drop (bs1.take D.length).length, tr, sh⟩ ::
            writeAt fs 0 (bs1.drop D.length) := by
        rw [writeAt, if_neg h]
        dsimp only
        simp only [List.take_zero, List.nil_append, Nat.sub_zero, Nat.zero_add]
      have router : writeAt (⟨D, tr, sh⟩ :: fs) 0 (bs1 ++ bs2) =
          ⟨(bs1 ++ bs2).take D.length ++
              D.drop ((bs1 ++ bs2).take D.length).length, tr, sh⟩ ::
            writeAt fs 0 ((bs1 ++ bs2).drop D.length) := by
        rw [writeAt, if_neg h]
        dsimp only
        simp only [List.take_zero, List.nil_append, Nat.sub_zero, Nat.zero_add]
      rw [inner, router]
      by_cases hb : D.length ≤ bs1.length
      · -- the first write covers the whole head fragment
        have hq : (bs1.take D.length).length = D.length := by
          simp only [List.length_take]; omega
        have hdp : D.drop (bs1.take D.length).length = [] := by
          rw [hq]; exact List.drop_eq_nil_of_le (le_refl _)
        have e1 : (bs1 ++ bs2).take D.length = bs1.take D.length :=
          List.take_append_of_le_length hb
        have e2 : (bs1 ++ bs2).drop D.length = bs1.drop D.length ++ bs2 :=
          List.drop_append_of_le_length hb
        rw [hdp, List.append_nil, writeAt]
        rw [if_pos (show bs1.length ≥
          (Frag.mk (bs1.take D.length) tr sh).data.length by dsimp only; omega)]
        rw [e1, e2, hdp, List.append_nil]
        dsimp only
        rw [show bs1.length - (bs1.take D.length).length =
          (bs1.drop D.length).length by
            simp only [List.length_take, List.length_drop]; omega]
        rw [ih (bs1.drop D.length) bs2]
      · -- the first write ends inside the head fragment
        have hb2 : bs1.length < D.length := by omega
        have htk : bs1.take D.length = bs1 := List.take_of_length_le (by omega)
        have hdp0 : bs1.drop D.length = [] := List.drop_eq_nil_of_le (by omega)
        have hq : (bs1.take D.length).length = bs1.length := by
          simp only [List.length_take]; omega
        rw [htk] at hq
        rw [htk, hdp0, writeAt_nil_bytes, hq]
        have hlen2 : (Frag.mk (bs1 ++ D.drop bs1.length) tr sh).data.length
            = D.length := by
          dsimp only
          simp only [List.length_append, List.length_drop]; omega
        rw [writeAt, hlen2, if_neg (by omega : ¬ bs1.length ≥ D.length)]
        dsimp only
        have e1 : (bs1 ++ D.drop bs1.length).take bs1.length = bs1 :=
          List.take_left bs1 _
        have e2 : (bs1 ++ bs2).take D.length =
            bs1 ++ bs2.take (D.length - bs1.length) := by
          rw [List.take_append_eq_append_take, List.take_of_length_le (by omega)]
        have e4 : (bs1 ++ D.drop bs1.length).drop
            (bs1.length + (bs2.take (D.length - bs1.length)).length) =
              D.drop ((bs1 ++ bs2).take D.length).length := by
          rw [List.drop_append_eq_append_drop,
            List.drop_eq_nil_of_le (by omega : bs1.length ≤
              bs1.length + (bs2.take (D.length - bs1.length)).length),
            List.nil_append, List.drop_drop]
          congr 1
          simp only [List.length_take, List.length_append]
          omega
        have e3 : (bs1 ++ bs2).drop D.length =
            bs2.drop (D.length - bs1.length) := by
          rw [List.drop_append_eq_append_drop, hdp0, List.nil_append]
        rw [e1, e2, e3, e4, e2]

theorem except_bind_ok {ε α β : Type} (a : α) (f : α → Except ε β) :
    (Except.ok a >>= f) = f a := rfl

theorem runUpdates_stream (C : Cipher) (hC : C.libOk = true) :
    ∀ (cs : List (List Nat)) (ctx : Ctx),
      (∀ c ∈ cs, c.length ≤ intMax) →
      runUpdates (streamUpdate C) ctx cs =
        .ok ({ ctx with
                pos := ctx.pos + cs.flatten.length
                evs := ctx.evs ++ cs.map (fun c => .upd c.length c.length) },
             applyKs C ctx.pos cs.flatten) := by
  intro cs
  induction cs with
  | nil => intro ctx _; simp [runUpdates, applyKs]
  | cons c cs ih =>
    intro ctx hsz
    have hc : ¬ c.length > intMax := by
      have := hsz c (List.mem_cons_self c cs)
      omega
    have hlib : (!C.libOk) = false := by rw [hC]; rfl
    rw [runUpdates, streamUpdate, if_neg hc, hlib, if_neg (by simp)]
    simp only [except_bind_ok]
    rw [ih _ (fun x hx => hsz x (List.mem_cons_of_mem c hx))]
    simp only [except_bind_ok, List.flatten_cons, List.map_cons, applyKs_append,
      List.length_append, Nat.add_assoc, List.append_assoc, List.singleton_append,
      List.cons_append, List.nil_append]

theorem adLoop_spec (C : Cipher) (hC : C.libOk = true) :
    ∀ (ad : Chain) (ctx : Ctx), (∀ f ∈ ad, f.data.length ≤ intMax) →
      adLoop C ctx ad = .ok { ctx with
        ad := ctx.ad ++ chainBytes ad
        evs := ctx.evs ++ ad.map (fun _ => .adUpd) } := by
  intro ad
  induction ad with
  | nil => intro ctx _; simp [adLoop, chainBytes]
  | cons f fs ih =>
    intro ctx hsz
    have hf : ¬ f.data.length > intMax := by
      have := hsz f (List.mem_cons_self f fs)
      omega
    have hlib : (!C.libOk) = false := by rw [hC]; rfl
    rw [adLoop, if_neg hf, hlib, if_neg (by simp)]
    rw [ih _ (fun x hx => hsz x (List.mem_cons_of_mem f hx))]
    dsimp only
    rw [chainBytes_cons]
    congr 2
    · simp [List.append_assoc]
    · simp [List.append_assoc]

theorem runUpdates_blocks (C : Cipher) (hC : C.libOk = true) :
    ∀ (bs : List Nat) (ctx : Ctx), ctx.buf = [] →
      runUpdates (blockUpdate C) ctx (chunks16 bs) =
        .ok ({ ctx with
                pos := ctx.pos + 16 * (bs.length / 16)
                buf := bs.drop (16 * (bs.length / 16))
                evs := ctx.evs ++ (chunks16 bs).map
                  (fun c => .upd c.length (16 * (c.length / 16))) },
             applyKs C ctx.pos (bs.take (16 * (bs.length / 16)))) := by
  intro bs
  induction bs using chunks16.induct with
  | case1 =>
    intro ctx hbuf
    rw [chunks16]
    obtain ⟨p, bf, a, es⟩ := ctx
    simp only at hbuf
    subst hbuf
    simp [runUpdates, applyKs]
  | case2 b bs ih =>
    intro ctx hbuf
    have hlib : (!C.libOk) = false := by rw [hC]; rfl
    have hc : ¬ ((b :: bs).take 16).length > intMax := by
      simp only [List.length_take, intMax]
      omega
    rw [chunks16, runUpdates, blockUpdate, if_neg hc, hlib, if_neg (by simp)]
    simp only [except_bind_ok, hbuf, List.nil_append]
    by_cases hlen : 16 ≤ (b :: bs).length
    · -- a full 16-byte chunk was consumed and written
      have h16 : ((b :: bs).take 16).length = 16 := by
        simp only [List.length_take]; omega
      have hn : 16 * (((b :: bs).take 16).length / 16) = 16 := by rw [h16]
      have hdrop : ((b :: bs).take 16).drop 16 = [] :=
        List.drop_eq_nil_of_le (by omega)
      have htt : ((b :: bs).take 16).take 16 = (b :: bs).take 16 :=
        List.take_of_length_le (by omega)
      rw [hn, hdrop, htt]
      rw [ih _ rfl]
      simp only [except_bind_ok]
      have hrl : ((b :: bs).drop 16).length = (b :: bs).length - 16 := by simp
      have hq : 16 * ((b :: bs).length / 16) =
          16 + 16 * (((b :: bs).drop 16).length / 16) := by
        rw [hrl]; omega
      rw [hq]
      have htk : (b :: bs).take (16 + 16 * (((b :: bs).drop 16).length / 16)) =
          (b :: bs).take 16 ++
            ((b :: bs).drop 16).take (16 * (((b :: bs).drop 16).length / 16)) :=
        List.take_add _ _ _
      rw [htk, applyKs_append, h16]
      have hdd : ((b :: bs).drop 16).drop (16 * (((b :: bs).drop 16).length / 16)) =
          (b :: bs).drop (16 + 16 * (((b :: bs).drop 16).length / 16)) := by
        rw [List.drop_drop]
      rw [hdd]
      simp only [List.map_cons, h16, hn, List.append_assoc, List.cons_append,
        List.nil_append, Nat.add_assoc]
    · -- a short trailing chunk: nothing written, all bytes buffered
      have hlt : (b :: bs).length < 16 := by omega
      have htk : (b :: bs).take 16 = b :: bs := List.take_of_length_le (by omega)
      have hdrop16 : (b :: bs).drop 16 = [] := List.drop_eq_nil_of_le (by omega)
      rw [htk, hdrop16, chunks16]
      have hn0' : 16 * ((b :: bs).length / 16) = 0 := by
        have : (b :: bs).length / 16 = 0 := Nat.div_eq_of_lt hlt
        rw [this]
      rw [hn0', runUpdates]
      simp only [except_bind_ok, List.drop_zero, List.take_zero, applyKs,
        List.map_cons, List.map_nil, List.append_nil, Nat.add_zero]
      rw [hn0']

theorem encFunc_spec (C : Cipher) (hC : C.libOk = true) (ctx : Ctx)
    (plaintext output : Chain)
    (hsz : ∀ f ∈ plaintext, f.data.length ≤ intMax) :
    encFunc C ctx plaintext output =
      .ok ({ ctx with
              pos := ctx.pos + chainLength plaintext
              evs := ctx.evs ++ (fragChunks plaintext).map
                  (fun c => .upd c.length c.length) ++ [.fin 0] },
           writeAt output 0 (applyKs C ctx.pos (chainBytes plaintext))) := by
  have hsz2 : ∀ c ∈ fragChunks plaintext, c.length ≤ intMax := by
    intro c hc
    obtain ⟨f, hf, rfl⟩ := List.mem_map.mp hc
    exact hsz f hf
  have hlib : (!C.libOk) = false := by rw [hC]; rfl
  rw [encFunc, runUpdates_stream C hC _ _ hsz2]
  simp only [except_bind_ok, hlib, if_neg (by simp : ¬ false = true), addEv,
    Bool.false_eq_true, if_false]
  rfl

theorem decFunc_spec (C : Cipher) (hC : C.libOk = true) (ctx : Ctx)
    (ciphertext output : Chain) (tagOut : List Nat)
    (hsz : ∀ f ∈ ciphertext, f.data.length ≤ intMax) :
    decFunc C ctx ciphertext output tagOut =
      .ok (C.mkTag ctx.ad (chainBytes ciphertext) tagOut.length == tagOut,
           { ctx with
              pos := ctx.pos + chainLength ciphertext
              evs := ctx.evs ++ (fragChunks ciphertext).map
                  (fun c => .upd c.length c.length) ++ [.setTag, .fin 0] },
           writeAt output 0 (applyKs C ctx.pos (chainBytes ciphertext))) := by
  have hsz2 : ∀ c ∈ fragChunks ciphertext, c.length ≤ intMax := by
    intro c hc
    obtain ⟨f, hf, rfl⟩ := List.mem_map.mp hc
    exact hsz f hf
  have hlib : (!C.libOk) = false := by rw [hC]; rfl
  rw [decFunc, runUpdates_stream C hC _ _ hsz2]
  simp only [except_bind_ok, hlib, Bool.false_eq_true, if_false, addEv]
  simp only [List.append_assoc, List.cons_append, List.nil_append]
  rfl

theorem encFuncBlocks_spec (C : Cipher) (hC : C.libOk = true) (ctx : Ctx)
    (hbuf : ctx.buf = []) (plaintext output : Chain) :
    encFuncBlocks C ctx plaintext output =
      .ok ({ ctx with
              pos := ctx.pos + chainLength plaintext
              buf := []
              evs := ctx.evs ++ (chunks16 (chainBytes plaintext)).map
                  (fun c => .upd c.length (16 * (c.length / 16))) ++
                [.fin (chainLength plaintext -
                  16 * (chainLength plaintext / 16))] },
           writeAt output 0 (applyKs C ctx.pos (chainBytes plaintext))) := by
  have hlib : (!C.libOk) = false := by rw [hC]; rfl
  have hWle : 16 * ((chainBytes plaintext).length / 16) ≤
      (chainBytes plaintext).length := by omega
  rw [encFuncBlocks, runUpdates_blocks C hC _ _ hbuf]
  simp only [except_bind_ok, hlib, Bool.false_eq_true, if_false]
  rw [writeAt_writeAt, ite_self]
  have he : (applyKs C (ctx.pos + 16 * ((chainBytes plaintext).length / 16))
      ((chainBytes plaintext).drop (16 * ((chainBytes plaintext).length / 16)))).length
        = (chainBytes plaintext).length -
            16 * ((chainBytes plaintext).length / 16) := by
    rw [applyKs_length, List.length_drop]
  have hcomb : applyKs C ctx.pos ((chainBytes plaintext).take
        (16 * ((chainBytes plaintext).length / 16))) ++
      applyKs C (ctx.pos + 16 * ((chainBytes plaintext).length / 16))
        ((chainBytes plaintext).drop (16 * ((chainBytes plaintext).length / 16))) =
      applyKs C ctx.pos (chainBytes plaintext) := by
    have h := applyKs_append C ctx.pos
      ((chainBytes plaintext).take (16 * ((chainBytes plaintext).length / 16)))
      ((chainBytes plaintext).drop (16 * ((chainBytes plaintext).length / 16)))
    rw [List.take_append_drop, List.length_take, Nat.min_eq_left hWle] at h
    exact h.symm
  rw [hcomb, he]
  have hpos : ctx.pos + 16 * ((chainBytes plaintext).length / 16) +
      ((chainBytes plaintext).length - 16 * ((chainBytes plaintext).length / 16)) =
        ctx.pos + chainLength plaintext := by
    show _ = ctx.pos + (chainBytes plaintext).length
    omega
  rw [hpos]
  rfl

theorem decFuncBlocks_spec (C : Cipher) (hC : C.libOk = true) (ctx : Ctx)
    (hbuf : ctx.buf = []) (ciphertext output : Chain) (tagOut : List Nat) :
    decFuncBlocks C ctx ciphertext output tagOut =
      .ok (C.mkTag ctx.ad (chainBytes ciphertext) tagOut.length == tagOut,
           { ctx with
              pos := ctx.pos + chainLength ciphertext
              buf := []
              evs := ctx.evs ++ [.setTag] ++
                (chunks16 (chainBytes ciphertext)).map
                  (fun c => .upd c.length (16 * (c.length / 16))) ++
                [.fin (chainLength ciphertext -
                  16 * (chainLength ciphertext / 16))] },
           if C.mkTag ctx.ad (chainBytes ciphertext) tagOut.length == tagOut then
             writeAt output 0 (applyKs C ctx.pos (chainBytes ciphertext))
           else
             writeAt output 0 (applyKs C ctx.pos ((chainBytes ciphertext).take
               (16 * ((chainBytes ciphertext).length / 16))))) := by
  have hlib : (!C.libOk) = false := by rw [hC]; rfl
  have hWle : 16 * ((chainBytes ciphertext).length / 16) ≤
      (chainBytes ciphertext).length := by omega
  have he : (applyKs C (ctx.pos + 16 * ((chainBytes ciphertext).length / 16))
      ((chainBytes ciphertext).drop (16 * ((chainBytes ciphertext).length / 16)))).length
        = (chainBytes ciphertext).length -
            16 * ((chainBytes ciphertext).length / 16) := by
    rw [applyKs_length, List.length_drop]
  have hcomb : applyKs C ctx.pos ((chainBytes ciphertext).take
        (16 * ((chainBytes ciphertext).length / 16))) ++
      applyKs C (ctx.pos + 16 * ((chainBytes ciphertext).length / 16))
        ((chainBytes ciphertext).drop (16 * ((chainBytes ciphertext).length / 16))) =
      applyKs C ctx.pos (chainBytes ciphertext) := by
    have h := applyKs_append C ctx.pos
      ((chainBytes ciphertext).take (16 * ((chainBytes ciphertext).length / 16)))
      ((chainBytes ciphertext).drop (16 * ((chainBytes ciphertext).length / 16)))
    rw [List.take_append_drop, List.length_take, Nat.min_eq_left hWle] at h
    exact h.symm
  have hpos : ctx.pos + 16 * ((chainBytes ciphertext).length / 16) +
      ((chainBytes ciphertext).length -
        16 * ((chainBytes ciphertext).length / 16)) =
        ctx.pos + chainLength ciphertext := by
    show _ = ctx.pos + (chainBytes ciphertext).length
    omega
  simp only [decFuncBlocks, addEv, hlib, Bool.false_eq_true, if_false]
  rw [runUpdates_blocks C hC (chainBytes ciphertext)
    { ctx with evs := ctx.evs ++ [Ev.setTag] } (by simp [hbuf])]
  simp only [except_bind_ok]
  by_cases hauth :
      (C.mkTag ctx.ad (chainBytes ciphertext) tagOut.length == tagOut) = true
  · simp only [hauth, if_true, Bool.not_true, Bool.false_eq_true, if_false,
      ite_self]
    rw [writeAt_writeAt, hcomb, he, hpos]
    rfl
  · have hf : (C.mkTag ctx.ad (chainBytes ciphertext) tagOut.length == tagOut)
        = false := by
      revert hauth
      cases C.mkTag ctx.ad (chainBytes ciphertext) tagOut.length == tagOut <;> simp
    simp only [hf, Bool.false_eq_true, if_false, Bool.not_false, if_true,
      ite_self]
    rw [he, hpos]
    rfl

theorem countShared_eq_shape (c : Chain) :
    countShared c = ((chainShape c).filter (fun s => s.2.2)).length := by
  induction c with
  | nil => rfl
  | cons f fs ih =>
    simp only [countShared, chainShape, List.map_cons, List.filter_cons] at ih ⊢
    by_cases h : f.shared
    · simp only [h, fragShape, if_pos]
      simp only [List.length_cons]
      omega
    · simp only [h, fragShape]
      simp only [Bool.false_eq_true, if_false]
      exact ih

theorem countShared_writeAt (c : Chain) (off : Nat) (bs : List Nat) :
    countShared (writeAt c off bs) = countShared c := by
  rw [countShared_eq_shape, countShared_eq_shape, chainShape_writeAt]

theorem lastTailroom_eq_shape (c : Chain) :
    lastTailroom c = ((chainShape c).getLast?.getD (0, 0, false)).2.1 := by
  induction c with
  | nil => rfl
  | cons f fs ih =>
    cases fs with
    | nil => rfl
    | cons f2 fs2 =>
      rw [lastTailroom, List.getLast?_cons_cons]
      rw [lastTailroom] at ih
      rw [ih]
      rw [show chainShape (f :: f2 :: fs2) =
        fragShape f :: fragShape f2 :: chainShape fs2 from rfl,
        show chainShape (f2 :: fs2) = fragShape f2 :: chainShape fs2 from rfl,
        List.getLast?_cons_cons]

theorem lastTailroom_writeAt (c : Chain) (off : Nat) (bs : List Nat) :
    lastTailroom (writeAt c off bs) = lastTailroom c := by
  rw [lastTailroom_eq_shape, lastTailroom_eq_shape, chainShape_writeAt]

theorem appendToLast_spec (t : List Nat) :
    ∀ (c : Chain), c ≠ [] →
      chainBytes (appendToLast c t) = chainBytes c ++ t ∧
      chainShape (appendToLast c t) =
        (chainShape c).dropLast ++
          [(((chainShape c).getLast?.getD (0,0,false)).1 + t.length,
            ((chainShape c).getLast?.getD (0,0,false)).2.1 - t.length,
            ((chainShape c).getLast?.getD (0,0,false)).2.2)] := by
  intro c
  induction c with
  | nil => intro h; exact absurd rfl h
  | cons f fs ih =>
    intro _
    cases fs with
    | nil =>
      refine ⟨?_, ?_⟩
      · simp [appendToLast, chainBytes]
      · simp [appendToLast, chainShape, fragShape]
    | cons f2 fs2 =>
      obtain ⟨ih1, ih2⟩ := ih (by simp)
      refine ⟨?_, ?_⟩
      · rw [show appendToLast (f :: f2 :: fs2) t =
          f :: appendToLast (f2 :: fs2) t from rfl]
        rw [chainBytes_cons, ih1]
        simp [chainBytes_cons, List.append_assoc]
      · rw [show appendToLast (f :: f2 :: fs2) t =
          f :: appendToLast (f2 :: fs2) t from rfl]
        rw [show chainShape (f :: appendToLast (f2 :: fs2) t) =
          fragShape f :: chainShape (appendToLast (f2 :: fs2) t) from rfl]
        rw [ih2]
        rw [show chainShape (f :: f2 :: fs2) =
          fragShape f :: fragShape f2 :: chainShape fs2 from rfl,
          show chainShape (f2 :: fs2) = fragShape f2 :: chainShape fs2 from rfl,
          List.getLast?_cons_cons]
        rw [show (fragShape f :: fragShape f2 :: chainShape fs2).dropLast =
          fragShape f :: (fragShape f2 :: chainShape fs2).dropLast from by
            rw [List.dropLast_cons_of_ne_nil]
            simp]
        rfl

theorem countShared_append (a b : Chain) :
    countShared (a ++ b) = countShared a + countShared b := by
  simp [countShared, List.filter_append]

theorem trimChain_append_last (cs : Chain) (f : Frag) (n : Nat) :
    trimChain (cs ++ [f]) n =
      if n = 0 then cs ++ [f]
      else if f.data.length ≤ n then
        trimChain cs (n - f.data.length) ++
          [⟨[], f.tailroom + f.data.length, f.shared⟩]
      else
        cs ++ [⟨f.data.take (f.data.length - n), f.tailroom + n, f.shared⟩] := by
  rw [trimChain]
  rw [show (cs ++ [f]).reverse = f :: cs.reverse by simp]
  rw [trimRev]
  by_cases h0 : n = 0
  · rw [if_pos h0, if_pos h0]
    simp
  · rw [if_neg h0, if_neg h0]
    by_cases hf : f.data.length ≤ n
    · rw [if_pos hf, if_pos hf]
      simp [trimChain]
    · rw [if_neg hf, if_neg hf]
      simp

theorem trimChain_spec (c : Chain) : ∀ n, n ≤ chainLength c →
    chainBytes (trimChain c n) = (chainBytes c).take (chainLength c - n) ∧
    countShared (trimChain c n) = countShared c ∧
    chainLength (trimChain c n) = chainLength c - n := by
  simp only [chainLength]
  induction c using List.reverseRecOn with
  | nil =>
    intro n hn
    simp only [chainBytes, List.map_nil, List.flatten_nil, List.length_nil] at hn ⊢
    have : n = 0 := by omega
    subst this
    exact ⟨rfl, rfl, rfl⟩
  | append_singleton cs f ih =>
    intro n hn
    have hbytes : chainBytes (cs ++ [f]) = chainBytes cs ++ f.data := by
      simp [chainBytes]
    rw [hbytes] at hn ⊢
    rw [List.length_append] at hn ⊢
    rw [trimChain_append_last]
    by_cases h0 : n = 0
    · subst h0
      rw [if_pos rfl]
      have h1 : chainBytes (cs ++ [f]) =
          ((chainBytes cs ++ f.data)).take
            ((chainBytes cs).length + f.data.length - 0) := by
        rw [hbytes, Nat.sub_zero, ← List.length_append, List.take_length]
      refine ⟨h1, rfl, ?_⟩
      rw [h1]
      simp only [List.length_take, List.length_append]
      omega
    · rw [if_neg h0]
      by_cases hf : f.data.length ≤ n
      · rw [if_pos hf]
        have hb : n - f.data.length ≤ (chainBytes cs).length := by omega
        obtain ⟨ih1, ih2, ih3⟩ := ih (n - f.data.length) hb
        have h1 : chainBytes (trimChain cs (n - f.data.length) ++
            [⟨[], f.tailroom + f.data.length, f.shared⟩]) =
              (chainBytes cs ++ f.data).take
                ((chainBytes cs).length + f.data.length - n) := by
          rw [chainBytes_append, ih1]
          rw [show chainBytes [(⟨[], f.tailroom + f.data.length, f.shared⟩ : Frag)]
            = [] from rfl, List.append_nil]
          rw [List.take_append_eq_append_take]
          rw [List.take_eq_nil_iff.mpr
            (Or.inl (by omega :
              (chainBytes cs).length + f.data.length - n - (chainBytes cs).length
                = 0))]
          rw [List.append_nil]
          congr 1
          omega
        refine ⟨h1, ?_, ?_⟩
        · rw [countShared_append, countShared_append, ih2]
          cases hsh : f.shared <;> simp [countShared, List.filter_cons, hsh]
        · rw [h1]
          simp only [List.length_take, List.length_append]
          omega
      · rw [if_neg hf]
        have h1 : chainBytes (cs ++
            [⟨f.data.take (f.data.length - n), f.tailroom + n, f.shared⟩]) =
              (chainBytes cs ++ f.data).take
                ((chainBytes cs).length + f.data.length - n) := by
          rw [show chainBytes (cs ++
              [⟨f.data.take (f.data.length - n), f.tailroom + n, f.shared⟩]) =
            chainBytes cs ++ f.data.take (f.data.length - n) from by
              simp [chainBytes]]
          rw [List.take_append_eq_append_take]
          rw [List.take_of_length_le (by omega : (chainBytes cs).length ≤
            (chainBytes cs).length + f.data.length - n)]
          congr 2
          omega
        refine ⟨h1, ?_, ?_⟩
        · rw [countShared_append, countShared_append]
          cases hsh : f.shared <;> simp [countShared, List.filter_cons, hsh]
        · rw [h1]
          simp only [List.length_take, List.length_append]
          omega

theorem unshareMap_bytes (c : Chain) :
    chainBytes (c.map (fun f => if f.shared then unshareFrag f else f)) =
      chainBytes c := by
  induction c with
  | nil => rfl
  | cons f fs ih =>
    simp only [List.map_cons, chainBytes_cons, ih]
    by_cases h : f.shared
    · simp [h, unshareFrag, chainBytes_cons]
    · simp [h, chainBytes_cons]

theorem unshareMap_countShared (c : Chain) :
    countShared (c.map (fun f => if f.shared then unshareFrag f else f)) = 0 := by
  induction c with
  | nil => rfl
  | cons f fs ih =>
    simp only [List.map_cons, countShared, List.filter_cons] at ih ⊢
    by_cases h : f.shared
    · simp only [h, if_pos, unshareFrag]
      simpa using ih
    · simp only [h]
      simpa [h] using ih

theorem fixup_zero (c : Chain) (L : Nat) (h : countShared c = 0) :
    fixupSharedBuffer c L = some (c, c) := by
  rw [fixupSharedBuffer]
  simp [h]

theorem fixup_ub (c : Chain) (L : Nat) (h1 : 0 < countShared c)
    (h2 : countShared c < kMaxSharedInChain) :
    fixupSharedBuffer c L = none := by
  rw [fixupSharedBuffer]
  simp only []
  rw [if_neg (by omega), if_pos (by omega), if_neg (by omega)]

theorem fixup_eqK (c : Chain) (L : Nat) (h : countShared c = kMaxSharedInChain) :
    fixupSharedBuffer c L =
      some (c.map (fun f => if f.shared then unshareFrag f else f),
            c.map (fun f => if f.shared then unshareFrag f else f)) := by
  rw [fixupSharedBuffer]
  simp only []
  rw [if_neg (by rw [h, kMaxSharedInChain]; omega), if_pos (by omega), if_pos h]

theorem fixup_gtK (c : Chain) (L : Nat) (h : kMaxSharedInChain < countShared c) :
    fixupSharedBuffer c L = some (c, [⟨List.replicate L 0, 0, false⟩]) := by
  rw [fixupSharedBuffer]
  simp only []
  rw [if_neg (by omega), if_neg (by omega)]

theorem writeAt_full_bytes (output : Chain) (bs : List Nat)
    (h : bs.length = chainLength output) :
    chainBytes (writeAt output 0 bs) = bs := by
  rw [chainBytes_writeAt_zero, ← h, List.take_length, h, chainLength,
    List.drop_length, List.append_nil]

theorem evpEncrypt_spec (C : Cipher) (hC : C.libOk = true)
    (plaintext : Chain) (ad : Option Chain) (tagLen headroom : Nat) (mode : Bool)
    (hpt : mode = false → ∀ f ∈ plaintext, f.data.length ≤ intMax)
    (had : ∀ a, ad = some a → ∀ f ∈ a, f.data.length ≤ intMax) :
    ∃ r, evpEncrypt C plaintext ad tagLen headroom mode = .ok r ∧
      r.inPlace = !chainIsShared plaintext ∧
      chainBytes r.preTag = applyKs C 0 (chainBytes plaintext) ∧
      chainShape r.preTag = (if chainIsShared plaintext
        then [(chainLength plaintext, tagLen, false)]
        else chainShape plaintext) ∧
      r.chain = (if lastTailroom r.preTag < tagLen
        then r.preTag ++
          [⟨C.mkTag (adBytes ad) (chainBytes r.preTag) tagLen, 0, false⟩]
        else appendToLast r.preTag
          (C.mkTag (adBytes ad) (chainBytes r.preTag) tagLen)) ∧
      (r.tagAllocated = true ↔ lastTailroom r.preTag < tagLen) := by
  have hlib : (!C.libOk) = false := by rw [hC]; rfl
  have hadu : ∃ evs2, adUpdates C ⟨0, [], [], [Ev.init]⟩ ad =
      .ok ⟨0, [], adBytes ad, [Ev.init] ++ evs2⟩ := by
    cases ad with
    | none => exact ⟨[], rfl⟩
    | some a =>
      refine ⟨a.map (fun _ => Ev.adUpd), ?_⟩
      rw [adUpdates, adLoop_spec C hC a _ (had a rfl)]
      rfl
  obtain ⟨evs2, hadu⟩ := hadu
  have hksl : (applyKs C 0 (chainBytes plaintext)).length =
      (chainBytes plaintext).length := applyKs_length _ _ _
  by_cases hsh : chainIsShared plaintext = true
  · -- shared input: out-of-place into a single fresh buffer
    have houtlen : (applyKs C 0 (chainBytes plaintext)).length =
        chainLength ([⟨List.replicate (chainLength plaintext) 0, tagLen,
          false⟩] : Chain) := by
      rw [hksl]
      simp [chainLength, chainBytes]
    have hbytesP := writeAt_full_bytes _ _ houtlen
    have hshapeP : chainShape (writeAt
        ([⟨List.replicate (chainLength plaintext) 0, tagLen, false⟩] : Chain) 0
          (applyKs C 0 (chainBytes plaintext))) =
        [(chainLength plaintext, tagLen, false)] := by
      rw [chainShape_writeAt]
      simp [chainShape, fragShape]
    simp only [evpEncrypt, hlib, Bool.false_eq_true, if_false, hsh, if_true]
    rw [hadu]
    simp only [except_bind_ok]
    cases mode with
    | true =>
      rw [encFuncBlocks_spec C hC _ rfl]
      simp only [except_bind_ok, hlib, Bool.false_eq_true, if_false]
      by_cases htail : lastTailroom (writeAt
          ([⟨List.replicate (chainLength plaintext) 0, tagLen, false⟩] : Chain) 0
            (applyKs C 0 (chainBytes plaintext))) < tagLen
      · rw [if_pos htail]
        exact ⟨_, rfl, by simp [hsh], hbytesP, by simp [hshapeP, hsh],
          by simp [htail], by simp [htail]⟩
      · rw [if_neg htail]
        exact ⟨_, rfl, by simp [hsh], hbytesP, by simp [hshapeP, hsh],
          by simp [htail], by simp [htail]⟩
    | false =>
      rw [encFunc_spec C hC _ _ _ (hpt rfl)]
      simp only [except_bind_ok, hlib, Bool.false_eq_true, if_false]
      by_cases htail : lastTailroom (writeAt
          ([⟨List.replicate (chainLength plaintext) 0, tagLen, false⟩] : Chain) 0
            (applyKs C 0 (chainBytes plaintext))) < tagLen
      · rw [if_pos htail]
        exact ⟨_, rfl, by simp [hsh], hbytesP, by simp [hshapeP, hsh],
          by simp [htail], by simp [htail]⟩
      · rw [if_neg htail]
        exact ⟨_, rfl, by simp [hsh], hbytesP, by simp [hshapeP, hsh],
          by simp [htail], by simp [htail]⟩
  · -- unshared input: encrypt in place
    have hsh2 : chainIsShared plaintext = false := by
      revert hsh; cases chainIsShared plaintext <;> simp
    have houtlen : (applyKs C 0 (chainBytes plaintext)).length =
        chainLength plaintext := by
      rw [hksl]; rfl
    have hbytesP := writeAt_full_bytes plaintext _ houtlen
    have hshapeP : chainShape (writeAt plaintext 0
        (applyKs C 0 (chainBytes plaintext))) = chainShape plaintext :=
      chainShape_writeAt _ _ _
    simp only [evpEncrypt, hlib, Bool.false_eq_true, if_false, hsh2, if_false]
    rw [hadu]
    simp only [except_bind_ok]
    cases mode with
    | true =>
      rw [encFuncBlocks_spec C hC _ rfl]
      simp only [except_bind_ok, hlib, Bool.false_eq_true, if_false]
      by_cases htail : lastTailroom (writeAt plaintext 0
          (applyKs C 0 (chainBytes plaintext))) < tagLen
      · rw [if_pos htail]
        exact ⟨_, rfl, by simp [hsh2], hbytesP, by simp [hshapeP, hsh2],
          by simp [htail], by simp [htail]⟩
      · rw [if_neg htail]
        exact ⟨_, rfl, by simp [hsh2], hbytesP, by simp [hshapeP, hsh2],
          by simp [htail], by simp [htail]⟩
    | false =>
      rw [encFunc_spec C hC _ _ _ (hpt rfl)]
      simp only [except_bind_ok, hlib, Bool.false_eq_true, if_false]
      by_cases htail : lastTailroom (writeAt plaintext 0
          (applyKs C 0 (chainBytes plaintext))) < tagLen
      · rw [if_pos htail]
        exact ⟨_, rfl, by simp [hsh2], hbytesP, by simp [hshapeP, hsh2],
          by simp [htail], by simp [htail]⟩
      · rw [if_neg htail]
        exact ⟨_, rfl, by simp [hsh2], hbytesP, by simp [hshapeP, hsh2],
          by simp [htail], by simp [htail]⟩

theorem countShared_zero_of_not_shared (c : Chain)
    (h : chainIsShared c = false) : countShared c = 0 := by
  rw [countShared, List.length_eq_zero, List.filter_eq_nil_iff]
  rw [chainIsShared, List.any_eq_false] at h
  exact fun f hf => by simpa using h f hf

theorem countShared_appendToLast (t : List Nat) :
    ∀ (c : Chain), countShared (appendToLast c t) = countShared c := by
  intro c
  induction c with
  | nil => rfl
  | cons f fs ih =>
    cases fs with
    | nil =>
      cases hsh : f.shared <;>
        simp [appendToLast, countShared, List.filter_cons, hsh]
    | cons f2 fs2 =>
      rw [show appendToLast (f :: f2 :: fs2) t =
        f :: appendToLast (f2 :: fs2) t from rfl]
      rw [show countShared (f :: appendToLast (f2 :: fs2) t) =
        countShared [f] + countShared (appendToLast (f2 :: fs2) t) from
          countShared_append [f] _]
      rw [show countShared (f :: f2 :: fs2) =
        countShared [f] + countShared (f2 :: fs2) from countShared_append [f] _]
      rw [ih]

theorem trimRev_sizes : ∀ (r : Chain) (n : Nat) (g : Frag), g ∈ trimRev r n →
    ∃ f ∈ r, g.data.length ≤ f.data.length := by
  intro r
  induction r with
  | nil => intro n g hg; simp [trimRev] at hg
  | cons f fs ih =>
    intro n g hg
    rw [trimRev] at hg
    by_cases h0 : n = 0
    · rw [if_pos h0] at hg
      rcases List.mem_cons.mp hg with h | h
      · exact ⟨f, List.mem_cons_self f fs, by rw [h]⟩
      · exact ⟨g, List.mem_cons_of_mem f h, le_refl _⟩
    · rw [if_neg h0] at hg
      by_cases hf : f.data.length ≤ n
      · rw [if_pos hf] at hg
        rcases List.mem_cons.mp hg with h | h
        · refine ⟨f, List.mem_cons_self f fs, ?_⟩
          rw [h]
          simp
        · obtain ⟨f2, hf2, hle⟩ := ih (n - f.data.length) g h
          exact ⟨f2, List.mem_cons_of_mem f hf2, hle⟩
      · rw [if_neg hf] at hg
        rcases List.mem_cons.mp hg with h | h
        · refine ⟨f, List.mem_cons_self f fs, ?_⟩
          rw [h]
          simp
        · exact ⟨g, List.mem_cons_of_mem f h, le_refl _⟩

theorem trimChain_sizes (c : Chain) (n : Nat) (g : Frag)
    (hg : g ∈ trimChain c n) : ∃ f ∈ c, g.data.length ≤ f.data.length := by
  rw [trimChain, List.mem_reverse] at hg
  obtain ⟨f, hf, hle⟩ := trimRev_sizes c.reverse n g hg
  exact ⟨f, List.mem_reverse.mp hf, hle⟩

theorem evpDecrypt_spec (C : Cipher) (hC : C.libOk = true)
    (ciphertext : Chain) (ad : Option Chain) (tagLen : Nat) (mode : Bool)
    (hns : countShared ciphertext = 0)
    (hlen : tagLen ≤ chainLength ciphertext)
    (hct : mode = false → ∀ f ∈ ciphertext, f.data.length ≤ intMax)
    (had : ∀ a, ad = some a → ∀ f ∈ a, f.data.length ≤ intMax) :
    ∃ d, evpDecrypt C ciphertext ad tagLen mode = .ok d ∧
      ((C.mkTag (adBytes ad)
          ((chainBytes ciphertext).take (chainLength ciphertext - tagLen))
          ((chainBytes ciphertext).drop (chainLength ciphertext - tagLen)).length
            == (chainBytes ciphertext).drop (chainLength ciphertext - tagLen))
          = true →
        ∃ out, d.plaintext = some out ∧
          chainBytes out = applyKs C 0
            ((chainBytes ciphertext).take (chainLength ciphertext - tagLen))) ∧
      ((C.mkTag (adBytes ad)
          ((chainBytes ciphertext).take (chainLength ciphertext - tagLen))
          ((chainBytes ciphertext).drop (chainLength ciphertext - tagLen)).length
            == (chainBytes ciphertext).drop (chainLength ciphertext - tagLen))
          = false → d.plaintext = none) ∧
      d.evs = [Ev.init] ++
        ad.elim [] (fun a => a.map (fun _ => Ev.adUpd)) ++
        (if mode then
          [Ev.setTag] ++
            (chunks16 ((chainBytes ciphertext).take
              (chainLength ciphertext - tagLen))).map
              (fun c => Ev.upd c.length (16 * (c.length / 16))) ++
            [Ev.fin ((chainLength ciphertext - tagLen) -
              16 * ((chainLength ciphertext - tagLen) / 16))]
         else
          (fragChunks (trimChain ciphertext tagLen)).map
            (fun c => Ev.upd c.length c.length) ++ [Ev.setTag, Ev.fin 0]) := by
  have hlib : (!C.libOk) = false := by rw [hC]; rfl
  have hnl : ¬ chainLength ciphertext < tagLen := by omega
  obtain ⟨ht1, ht2, ht3⟩ := trimChain_spec ciphertext tagLen hlen
  have hadu : ∃ evs2, adUpdates C ⟨0, [], [], [Ev.init]⟩ ad =
      .ok ⟨0, [], adBytes ad, [Ev.init] ++ evs2⟩ ∧
      evs2 = ad.elim [] (fun a => a.map (fun _ => Ev.adUpd)) := by
    cases ad with
    | none => exact ⟨[], rfl, rfl⟩
    | some a =>
      refine ⟨a.map (fun _ => Ev.adUpd), ?_, rfl⟩
      rw [adUpdates, adLoop_spec C hC a _ (had a rfl)]
      rfl
  obtain ⟨evs2, hadu, hevs2⟩ := hadu
  simp only [evpDecrypt, if_neg hnl, trimBytes]
  rw [fixup_zero _ _ (by rw [ht2]; exact hns)]
  simp only [hlib, Bool.false_eq_true, if_false]
  rw [hadu]
  simp only [except_bind_ok]
  cases mode with
  | true =>
    rw [decFuncBlocks_spec C hC _ rfl]
    simp only [except_bind_ok]
    rw [ht1, ht3]
    by_cases hauth : (C.mkTag (adBytes ad)
        ((chainBytes ciphertext).take (chainLength ciphertext - tagLen))
        ((chainBytes ciphertext).drop (chainLength ciphertext - tagLen)).length
          == (chainBytes ciphertext).drop (chainLength ciphertext - tagLen))
            = true
    · rw [hauth]
      simp only [if_true]
      refine ⟨_, rfl, fun _ => ⟨_, rfl, ?_⟩, fun hcon => by simp [hauth] at hcon,
        by rw [hevs2]; simp [List.append_assoc]⟩
      · refine writeAt_full_bytes _ _ ?_
        rw [applyKs_length, List.length_take, ht3, chainLength]
        omega
    · have hf : (C.mkTag (adBytes ad)
          ((chainBytes ciphertext).take (chainLength ciphertext - tagLen))
          ((chainBytes ciphertext).drop (chainLength ciphertext - tagLen)).length
            == (chainBytes ciphertext).drop (chainLength ciphertext - tagLen))
              = false := by
        revert hauth
        cases (C.mkTag (adBytes ad)
          ((chainBytes ciphertext).take (chainLength ciphertext - tagLen))
          ((chainBytes ciphertext).drop (chainLength ciphertext - tagLen)).length
            == (chainBytes ciphertext).drop (chainLength ciphertext - tagLen)) <;>
          simp
      rw [hf]
      simp only [Bool.false_eq_true, if_false]
      exact ⟨_, rfl, fun hcon => absurd hcon (by simp),
        fun _ => rfl, by rw [hevs2]; simp [List.append_assoc]⟩
  | false =>
    have hsizes : ∀ f ∈ trimChain ciphertext tagLen, f.data.length ≤ intMax := by
      intro g hg
      obtain ⟨f, hf, hle⟩ := trimChain_sizes ciphertext tagLen g hg
      exact le_trans hle (hct rfl f hf)
    rw [decFunc_spec C hC _ _ _ _ hsizes]
    simp only [except_bind_ok]
    rw [ht1]
    by_cases hauth : (C.mkTag (adBytes ad)
        ((chainBytes ciphertext).take (chainLength ciphertext - tagLen))
        ((chainBytes ciphertext).drop (chainLength ciphertext - tagLen)).length
          == (chainBytes ciphertext).drop (chainLength ciphertext - tagLen))
            = true
    · rw [hauth]
      simp only [if_true]
      refine ⟨_, rfl, fun _ => ⟨_, rfl, ?_⟩, fun hcon => by simp [hauth] at hcon,
        by rw [hevs2]; simp [List.append_assoc]⟩
      refine writeAt_full_bytes _ _ ?_
      rw [applyKs_length, List.length_take, ht3, chainLength]
      omega
    · have hf : (C.mkTag (adBytes ad)
          ((chainBytes ciphertext).take (chainLength ciphertext - tagLen))
          ((chainBytes ciphertext).drop (chainLength ciphertext - tagLen)).length
            == (chainBytes ciphertext).drop (chainLength ciphertext - tagLen))
              = false := by
        revert hauth
        cases (C.mkTag (adBytes ad)
          ((chainBytes ciphertext).take (chainLength ciphertext - tagLen))
          ((chainBytes ciphertext).drop (chainLength ciphertext - tagLen)).length
            == (chainBytes ciphertext).drop (chainLength ciphertext - tagLen)) <;>
          simp
      rw [hf]
      simp only [Bool.false_eq_true, if_false]
      exact ⟨_, rfl, fun hcon => absurd hcon (by simp),
        fun _ => rfl, by rw [hevs2]; simp [List.append_assoc]⟩

theorem chainBytes_singleton (d : List Nat) (t : Nat) (s : Bool) :
    chainBytes [⟨d, t, s⟩] = d := by
  simp [chainBytes]

theorem mem_le_chainLength (c : Chain) (f : Frag) (hf : f ∈ c) :
    f.data.length ≤ chainLength c := by
  induction c with
  | nil => simp at hf
  | cons g gs ih =>
    rw [chainLength_cons]
    rcases List.mem_cons.mp hf with h | h
    · rw [h]; omega
    · have := ih h; omega

theorem evpEncrypt_chain_facts (C : Cipher) (hC : C.libOk = true)
    (plaintext : Chain) (ad : Option Chain) (tagLen headroom : Nat) (mode : Bool)
    (hne : plaintext ≠ [])
    (hpt : mode = false → ∀ f ∈ plaintext, f.data.length ≤ intMax)
    (had : ∀ a, ad = some a → ∀ f ∈ a, f.data.length ≤ intMax) :
    ∃ r, evpEncrypt C plaintext ad tagLen headroom mode = .ok r ∧
      chainBytes r.chain = applyKs C 0 (chainBytes plaintext) ++
        C.mkTag (adBytes ad) (applyKs C 0 (chainBytes plaintext)) tagLen ∧
      chainLength r.chain = chainLength plaintext + tagLen ∧
      countShared r.chain = 0 := by
  obtain ⟨r, hr, hip, hPb, hPs, hchain, hta⟩ :=
    evpEncrypt_spec C hC plaintext ad tagLen headroom mode hpt had
  refine ⟨r, hr, ?_⟩
  have hPcount : countShared r.preTag = 0 := by
    rw [countShared_eq_shape, hPs]
    by_cases hsh : chainIsShared plaintext = true
    · rw [if_pos hsh]
      rfl
    · rw [if_neg hsh]
      rw [← countShared_eq_shape]
      exact countShared_zero_of_not_shared plaintext (by
        revert hsh; cases chainIsShared plaintext <;> simp)
  have hPne : r.preTag ≠ [] := by
    intro hP
    rw [hP] at hPs
    by_cases hsh : chainIsShared plaintext = true
    · rw [if_pos hsh] at hPs
      exact absurd hPs.symm (by simp [chainShape])
    · rw [if_neg hsh] at hPs
      have : chainShape plaintext = [] := hPs.symm
      exact hne (by
        cases plaintext with
        | nil => rfl
        | cons f fs => simp [chainShape] at this)
  have hPlen : chainLength r.preTag = chainLength plaintext := by
    rw [chainLength, hPb, applyKs_length]
    rfl
  by_cases htail : lastTailroom r.preTag < tagLen
  · rw [if_pos htail] at hchain
    refine ⟨?_, ?_, ?_⟩
    · rw [hchain, chainBytes_append, hPb, chainBytes_singleton]
    · rw [hchain, chainLength, chainBytes_append, List.length_append, hPb,
        applyKs_length, chainBytes_singleton, C.mkTag_length]
      rfl
    · rw [hchain, countShared_append, hPcount]
      rfl
  · rw [if_neg htail] at hchain
    obtain ⟨ha1, _⟩ := appendToLast_spec
      (C.mkTag (adBytes ad) (chainBytes r.preTag) tagLen) r.preTag hPne
    refine ⟨?_, ?_, ?_⟩
    · rw [hchain, ha1, hPb]
    · rw [hchain, chainLength, ha1, List.length_append, C.mkTag_length]
      rw [hPb, applyKs_length]
      rfl
    · rw [hchain, countShared_appendToLast, hPcount]

/-- Claim C9: a decrypt call whose ciphertext chain is shorter than the
tag length returns `none` — the same result as an authentication
failure — without initializing the cipher, consuming associated data,
or throwing: the result is `ok` with an empty EVP event trace. -/
theorem evpDecrypt_short_ciphertext (C : Cipher) (ciphertext : Chain)
    (ad : Option Chain) (tagLen : Nat) (mode : Bool)
    (h : chainLength ciphertext < tagLen) :
    evpDecrypt C ciphertext ad tagLen mode = .ok ⟨none, []⟩ := by
  simp only [evpDecrypt, if_pos h]

/-- Closed witness for C9 at a concrete input. -/
theorem evpDecrypt_short_ciphertext_witness :
    chainLength [(⟨[1, 2], 0, false⟩ : Frag)] < 4 ∧
    evpDecrypt testCipher [(⟨[1, 2], 0, false⟩ : Frag)] none 4 false =
      .ok ⟨none, []⟩ :=
  ⟨by decide, evpDecrypt_short_ciphertext testCipher
    [(⟨[1, 2], 0, false⟩ : Frag)] none 4 false (by decide)⟩

/-- Claim C1: AEAD round trip and authentication.  With a functioning
cipher library (the key and 12-byte IV are embodied in the abstract
cipher's keystream and tag functions), in both block mode and stream
mode: decrypting the output of `evpEncrypt` with the same associated
data and cipher returns the original plaintext bytes; and decrypting
any ciphertext chain whose recomputed tag does not match its trailing
tag bytes — in particular a modified ciphertext, under the standard
MAC assumption that modifying a byte invalidates the tag — returns
`none`, i.e. authentication failure. -/
theorem evpEncrypt_evpDecrypt_roundtrip (C : Cipher) (hC : C.libOk = true)
    (pt : Chain) (ad : Option Chain) (tagLen headroom : Nat) (mode : Bool)
    (hne : pt ≠ [])
    (htot : mode = false → chainLength pt + tagLen ≤ intMax)
    (had : ∀ a, ad = some a → ∀ f ∈ a, f.data.length ≤ intMax) :
    (∃ r d out, evpEncrypt C pt ad tagLen headroom mode = .ok r ∧
      evpDecrypt C r.chain ad tagLen mode = .ok d ∧
      d.plaintext = some out ∧ chainBytes out = chainBytes pt) ∧
    (∀ c : Chain, countShared c = 0 → tagLen ≤ chainLength c →
      (mode = false → ∀ f ∈ c, f.data.length ≤ intMax) →
      C.mkTag (adBytes ad)
          ((chainBytes c).take (chainLength c - tagLen)) tagLen ≠
        (chainBytes c).drop (chainLength c - tagLen) →
      ∃ d, evpDecrypt C c ad tagLen mode = .ok d ∧ d.plaintext = none) := by
  constructor
  · have hpt : mode = false → ∀ f ∈ pt, f.data.length ≤ intMax := by
      intro hm f hf
      have h1 := mem_le_chainLength pt f hf
      have h2 := htot hm
      omega
    obtain ⟨r, hr, hb, hl, hcs⟩ :=
      evpEncrypt_chain_facts C hC pt ad tagLen headroom mode hne hpt had
    have hlen : tagLen ≤ chainLength r.chain := by omega
    have hctf : mode = false → ∀ f ∈ r.chain, f.data.length ≤ intMax := by
      intro hm f hf
      have h1 := mem_le_chainLength r.chain f hf
      have h2 := htot hm
      omega
    obtain ⟨d, hd, hdauth, _, _⟩ :=
      evpDecrypt_spec C hC r.chain ad tagLen mode hcs hlen hctf had
    have hL : chainLength r.chain - tagLen =
        (applyKs C 0 (chainBytes pt)).length := by
      rw [applyKs_length, hl, chainLength]
      omega
    have hbody : (chainBytes r.chain).take (chainLength r.chain - tagLen) =
        applyKs C 0 (chainBytes pt) := by
      rw [hb, hL, List.take_left]
    have htag : (chainBytes r.chain).drop (chainLength r.chain - tagLen) =
        C.mkTag (adBytes ad) (applyKs C 0 (chainBytes pt)) tagLen := by
      rw [hb, hL, List.drop_left]
    have hauth : (C.mkTag (adBytes ad)
        ((chainBytes r.chain).take (chainLength r.chain - tagLen))
        ((chainBytes r.chain).drop (chainLength r.chain - tagLen)).length ==
        (chainBytes r.chain).drop (chainLength r.chain - tagLen)) = true := by
      rw [hbody, htag, C.mkTag_length]
      exact beq_self_eq_true _
    obtain ⟨out, hout, houtb⟩ := hdauth hauth
    refine ⟨r, d, out, hr, hd, hout, ?_⟩
    rw [houtb, hbody, applyKs_applyKs]
  · intro c hns hclen hct hneq
    obtain ⟨d, hd, _, hnone, _⟩ :=
      evpDecrypt_spec C hC c ad tagLen mode hns hclen hct had
    have hdl : ((chainBytes c).drop (chainLength c - tagLen)).length
        = tagLen := by
      rw [List.length_drop]
      rw [chainLength] at hclen ⊢
      omega
    have hf : (C.mkTag (adBytes ad)
        ((chainBytes c).take (chainLength c - tagLen))
        ((chainBytes c).drop (chainLength c - tagLen)).length ==
        (chainBytes c).drop (chainLength c - tagLen)) = false := by
      rw [hdl]
      exact beq_false_of_ne hneq
    exact ⟨d, hd, hnone hf⟩

/-- Closed witness for C1: the round trip and a concrete tampered
ciphertext (first ciphertext byte changed) at a concrete cipher, in
stream mode. -/
theorem evpEncrypt_evpDecrypt_roundtrip_witness :
    (∃ r d out, evpEncrypt testCipher
        [⟨[1, 2, 3], 0, false⟩, ⟨[4, 5], 2, false⟩]
        (some [⟨[9], 0, false⟩]) 4 0 false = .ok r ∧
      evpDecrypt testCipher r.chain (some [⟨[9], 0, false⟩]) 4 false = .ok d ∧
      d.plaintext = some out ∧
      chainBytes out = chainBytes [⟨[1, 2, 3], 0, false⟩, ⟨[4, 5], 2, false⟩]) ∧
    (∃ d, evpDecrypt testCipher
        [⟨[3, 8, 18, 28, 26, 173, 174, 175, 176], 0, false⟩]
        (some [⟨[9], 0, false⟩]) 4 false = .ok d ∧ d.plaintext = none) := by
  have h := evpEncrypt_evpDecrypt_roundtrip testCipher rfl
    [⟨[1, 2, 3], 0, false⟩, ⟨[4, 5], 2, false⟩]
    (some [⟨[9], 0, false⟩]) 4 0 false (by decide)
    (fun _ => by decide)
    (fun a ha => by cases ha; decide)
  exact ⟨h.1, h.2 [⟨[3, 8, 18, 28, 26, 173, 174, 175, 176], 0, false⟩]
    (by decide) (by decide) (fun _ => by decide) (by decide)⟩

/-- Claim C4: for every successful encrypt call the ciphertext chain's
length is the plaintext length plus the tag length, the authentication
tag occupies the last `tagLen` bytes, and the tag is written in place
exactly when the last output buffer's tailroom is at least `tagLen`;
otherwise a fresh `tagLen`-byte buffer is allocated and appended. -/
theorem evpEncrypt_length_tag_placement (C : Cipher) (hC : C.libOk = true)
    (pt : Chain) (ad : Option Chain) (tagLen headroom : Nat) (mode : Bool)
    (hne : pt ≠ [])
    (hpt : mode = false → ∀ f ∈ pt, f.data.length ≤ intMax)
    (had : ∀ a, ad = some a → ∀ f ∈ a, f.data.length ≤ intMax) :
    ∃ r, evpEncrypt C pt ad tagLen headroom mode = .ok r ∧
      chainLength r.chain = chainLength pt + tagLen ∧
      (chainBytes r.chain).drop (chainLength pt) =
        C.mkTag (adBytes ad) ((chainBytes r.chain).take (chainLength pt))
          tagLen ∧
      (r.tagAllocated = false ↔ tagLen ≤ lastTailroom r.preTag) ∧
      (r.tagAllocated = false →
        r.chain = appendToLast r.preTag
          (C.mkTag (adBytes ad) (chainBytes r.preTag) tagLen)) ∧
      (r.tagAllocated = true →
        r.chain = r.preTag ++
          [⟨C.mkTag (adBytes ad) (chainBytes r.preTag) tagLen, 0, false⟩]) := by
  obtain ⟨r, hr, hip, hPb, hPs, hchain, hta⟩ :=
    evpEncrypt_spec C hC pt ad tagLen headroom mode hpt had
  obtain ⟨r2, hr2, hb2, hl2, hcs2⟩ :=
    evpEncrypt_chain_facts C hC pt ad tagLen headroom mode hne hpt had
  rw [hr] at hr2
  have hrr : r = r2 := Except.ok.inj hr2
  subst hrr
  have hLL : chainLength pt = (applyKs C 0 (chainBytes pt)).length := by
    rw [applyKs_length]; rfl
  refine ⟨r, hr, hl2, ?_, ?_, ?_, ?_⟩
  · rw [hb2, hLL, List.drop_left, List.take_left]
  · rw [show (r.tagAllocated = false) = ¬ (r.tagAllocated = true) from by
      cases r.tagAllocated <;> simp]
    rw [hta, Nat.not_lt]
  · intro hfa
    have : ¬ lastTailroom r.preTag < tagLen := by
      rw [← hta]
      rw [hfa]
      simp
    rw [if_neg this] at hchain
    exact hchain
  · intro hfa
    rw [if_pos (hta.mp hfa)] at hchain
    exact hchain

/-- Closed witness for C4 at a concrete input whose last buffer has
tailroom 2 < tag length 4, so a fresh tag buffer is allocated. -/
theorem evpEncrypt_length_tag_placement_witness :
    ∃ r, evpEncrypt testCipher [⟨[1, 2, 3], 0, false⟩, ⟨[4, 5], 2, false⟩]
        (some [⟨[9], 0, false⟩]) 4 0 false = .ok r ∧
      chainLength r.chain =
        chainLength [⟨[1, 2, 3], 0, false⟩, ⟨[4, 5], 2, false⟩] + 4 ∧
      (chainBytes r.chain).drop
          (chainLength [⟨[1, 2, 3], 0, false⟩, ⟨[4, 5], 2, false⟩]) =
        testCipher.mkTag (adBytes (some [⟨[9], 0, false⟩]))
          ((chainBytes r.chain).take
            (chainLength [⟨[1, 2, 3], 0, false⟩, ⟨[4, 5], 2, false⟩])) 4 ∧
      (r.tagAllocated = false ↔ 4 ≤ lastTailroom r.preTag) ∧
      (r.tagAllocated = false →
        r.chain = appendToLast r.preTag
          (testCipher.mkTag (adBytes (some [⟨[9], 0, false⟩]))
            (chainBytes r.preTag) 4)) ∧
      (r.tagAllocated = true →
        r.chain = r.preTag ++
          [⟨testCipher.mkTag (adBytes (some [⟨[9], 0, false⟩]))
            (chainBytes r.preTag) 4, 0, false⟩]) :=
  evpEncrypt_length_tag_placement testCipher rfl
    [⟨[1, 2, 3], 0, false⟩, ⟨[4, 5], 2, false⟩] (some [⟨[9], 0, false⟩]) 4 0
    false (by decide) (fun _ => by decide) (fun a ha => by cases ha; decide)

/-- Claim C2 counterexample: a plaintext chain with exactly one shared
fragment (within the claim's 1..K range, K = kMaxSharedInChain = 4).
The claim predicts that exactly that fragment is copied and spliced and
encryption is then performed in place on the two-fragment input chain;
the code instead allocates a single fresh output chain and encrypts out
of place (`output` is a fresh one-fragment chain, not the input). -/
theorem evpEncrypt_shared_counterexample :
    countShared [⟨[1, 2, 3], 5, true⟩, ⟨[4, 5], 6, false⟩] = 1 ∧
    1 ≤ kMaxSharedInChain ∧
    (evpEncrypt testCipher [⟨[1, 2, 3], 5, true⟩, ⟨[4, 5], 6, false⟩] none 4 0
        false).toOption.map (fun r => (r.inPlace, r.preTag.length)) =
      some (false, 1) := by
  refine ⟨by decide, by decide, ?_⟩
  rfl

/-- Claim C2 as amended: encryption is in place exactly when the input
chain has no shared fragment; whenever any fragment is shared — even a
single one — a single fresh output chain of the full input length (plus
tag tailroom) is allocated and encryption is done out of place.  (The
per-fragment unshare-and-splice of up to `kMaxSharedInChain` fragments
is performed only by the decrypt path's `fixupSharedBuffer`.) -/
theorem evpEncrypt_shared_amended (C : Cipher) (hC : C.libOk = true)
    (pt : Chain) (ad : Option Chain) (tagLen headroom : Nat) (mode : Bool)
    (hpt : mode = false → ∀ f ∈ pt, f.data.length ≤ intMax)
    (had : ∀ a, ad = some a → ∀ f ∈ a, f.data.length ≤ intMax) :
    ∃ r, evpEncrypt C pt ad tagLen headroom mode = .ok r ∧
      (r.inPlace = true ↔ chainIsShared pt = false) ∧
      (chainIsShared pt = false → chainShape r.preTag = chainShape pt) ∧
      (chainIsShared pt = true →
        chainShape r.preTag = [(chainLength pt, tagLen, false)]) := by
  obtain ⟨r, hr, hip, hPb, hPs, hchain, hta⟩ :=
    evpEncrypt_spec C hC pt ad tagLen headroom mode hpt had
  refine ⟨r, hr, ?_, ?_, ?_⟩
  · rw [hip]
    cases chainIsShared pt <;> simp
  · intro hsh
    rw [hPs, if_neg (by rw [hsh]; simp)]
  · intro hsh
    rw [hPs, if_pos hsh]

/-- Closed witness for the amended C2 at a concrete shared input. -/
theorem evpEncrypt_shared_amended_witness :
    ∃ r, evpEncrypt testCipher [⟨[1, 2, 3], 5, true⟩, ⟨[4, 5], 6, false⟩]
        none 4 0 false = .ok r ∧
      (r.inPlace = true ↔
        chainIsShared [⟨[1, 2, 3], 5, true⟩, ⟨[4, 5], 6, false⟩] = false) ∧
      (chainIsShared [⟨[1, 2, 3], 5, true⟩, ⟨[4, 5], 6, false⟩] = false →
        chainShape r.preTag =
          chainShape [⟨[1, 2, 3], 5, true⟩, ⟨[4, 5], 6, false⟩]) ∧
      (chainIsShared [⟨[1, 2, 3], 5, true⟩, ⟨[4, 5], 6, false⟩] = true →
        chainShape r.preTag =
          [(chainLength [⟨[1, 2, 3], 5, true⟩, ⟨[4, 5], 6, false⟩], 4,
            false)]) :=
  evpEncrypt_shared_amended testCipher rfl
    [⟨[1, 2, 3], 5, true⟩, ⟨[4, 5], 6, false⟩] none 4 0 false
    (fun _ => by decide) (fun a ha => by cases ha)

/-- Claim C3 (code bug): decrypting a ciphertext chain with exactly one
shared fragment (1 is within 1..kMaxSharedInChain−1) makes
`fixupSharedBuffer`'s unshare loop run over all `kMaxSharedInChain`
array slots although only one was initialized; dereferencing the
uninitialized `folly::IOBuf*` slots is undefined behavior, so the
decrypt result is not the unshared-equivalent result the claim
requires. -/
theorem evpDecrypt_shared_ub :
    countShared [⟨[1, 2, 3, 4, 5, 6], 0, true⟩, ⟨[7, 8, 9, 10], 0, false⟩]
        = 1 ∧
    1 < kMaxSharedInChain ∧
    evpDecrypt testCipher
      [⟨[1, 2, 3, 4, 5, 6], 0, true⟩, ⟨[7, 8, 9, 10], 0, false⟩]
      none 4 false = .error .ub :=
  ⟨by decide, by decide, by rfl⟩

theorem except_bind_err {ε α β : Type} (e : ε) (f : α → Except ε β) :
    (Except.error e >>= f) = .error e := rfl

theorem blockUpdate_error_classify (C : Cipher) (ctx : Ctx) (c : List Nat)
    (e : Err) (h : blockUpdate C ctx c = .error e) :
    e = .tooBig ∨ e = .lib := by
  rw [blockUpdate] at h
  split_ifs at h
  · exact Or.inl (Except.error.inj h).symm
  · exact Or.inr (Except.error.inj h).symm

theorem streamUpdate_error_classify (C : Cipher) (ctx : Ctx) (c : List Nat)
    (e : Err) (h : streamUpdate C ctx c = .error e) :
    e = .tooBig ∨ e = .lib := by
  rw [streamUpdate] at h
  split_ifs at h
  · exact Or.inl (Except.error.inj h).symm
  · exact Or.inr (Except.error.inj h).symm

theorem runUpdates_error_classify
    (upd : Ctx → List Nat → Except Err (Ctx × List Nat))
    (hupd : ∀ ctx c e, upd ctx c = .error e → e = .tooBig ∨ e = .lib) :
    ∀ (cs : List (List Nat)) (ctx : Ctx) (e : Err),
      runUpdates upd ctx cs = .error e → e = .tooBig ∨ e = .lib := by
  intro cs
  induction cs with
  | nil =>
    intro ctx e h
    simp [runUpdates] at h
  | cons c cs ih =>
    intro ctx e h
    rw [runUpdates] at h
    cases hu : upd ctx c with
    | error e2 =>
      rw [hu, except_bind_err] at h
      rw [← Except.error.inj h]
      exact hupd ctx c _ hu
    | ok p =>
      rw [hu, except_bind_ok] at h
      cases hr : runUpdates upd p.1 cs with
      | error e2 =>
        rw [hr, except_bind_err] at h
        rw [← Except.error.inj h]
        exact ih _ _ hr
      | ok q =>
        rw [hr, except_bind_ok] at h
        exact absurd h (by simp)

theorem adLoop_error_classify (C : Cipher) :
    ∀ (a : Chain) (ctx : Ctx) (e : Err), adLoop C ctx a = .error e →
      e = .tooBig ∨ e = .lib := by
  intro a
  induction a with
  | nil =>
    intro ctx e h
    simp [adLoop] at h
  | cons f fs ih =>
    intro ctx e h
    rw [adLoop] at h
    split_ifs at h
    · exact Or.inl (Except.error.inj h).symm
    · exact Or.inr (Except.error.inj h).symm
    · exact ih _ _ h

theorem adUpdates_error_classify (C : Cipher) (ad : Option Chain) (ctx : Ctx)
    (e : Err) (h : adUpdates C ctx ad = .error e) :
    e = .tooBig ∨ e = .lib := by
  cases ad with
  | none => simp [adUpdates] at h
  | some a => exact adLoop_error_classify C a ctx e h

theorem encFunc_error_classify (C : Cipher) (ctx : Ctx) (pt out : Chain)
    (e : Err) (h : encFunc C ctx pt out = .error e) :
    e = .tooBig ∨ e = .lib := by
  rw [encFunc] at h
  cases hr : runUpdates (streamUpdate C) ctx (fragChunks pt) with
  | error e2 =>
    rw [hr, except_bind_err] at h
    rw [← Except.error.inj h]
    exact runUpdates_error_classify _ (streamUpdate_error_classify C) _ _ _ hr
  | ok p =>
    rw [hr, except_bind_ok] at h
    split_ifs at h
    exact Or.inr (Except.error.inj h).symm

theorem encFuncBlocks_error_classify (C : Cipher) (ctx : Ctx) (pt out : Chain)
    (e : Err) (h : encFuncBlocks C ctx pt out = .error e) :
    e = .tooBig ∨ e = .lib := by
  rw [encFuncBlocks] at h
  cases hr : runUpdates (blockUpdate C) ctx (chunks16 (chainBytes pt)) with
  | error e2 =>
    rw [hr, except_bind_err] at h
    rw [← Except.error.inj h]
    exact runUpdates_error_classify _ (blockUpdate_error_classify C) _ _ _ hr
  | ok p =>
    rw [hr, except_bind_ok] at h
    split_ifs at h
    · exact Or.inr (Except.error.inj h).symm
    · rw [ite_self] at h
      exact absurd h (by simp)

/-- Claim C5: encryption throws only on programmer error — an update
fed more than `intMax` bytes — or a cipher-library failure (never the
undefined-behavior outcome, which only `fixupSharedBuffer` on the
decrypt path can reach); with a functioning library and in-range
fragment sizes encryption succeeds; decryption authentication failure
is an `ok none` result, not an error; and a cipher-library failure
during decryption is thrown as an error, not returned as `none`. -/
theorem evp_error_semantics (C : Cipher) (pt ct : Chain) (ad : Option Chain)
    (tagLen headroom : Nat) (mode : Bool) :
    (∀ e, evpEncrypt C pt ad tagLen headroom mode = .error e →
      e = .tooBig ∨ e = .lib) ∧
    (C.libOk = true →
      (mode = false → ∀ f ∈ pt, f.data.length ≤ intMax) →
      (∀ a, ad = some a → ∀ f ∈ a, f.data.length ≤ intMax) →
      ∃ r, evpEncrypt C pt ad tagLen headroom mode = .ok r) ∧
    (C.libOk = true → countShared ct = 0 → tagLen ≤ chainLength ct →
      (mode = false → ∀ f ∈ ct, f.data.length ≤ intMax) →
      (∀ a, ad = some a → ∀ f ∈ a, f.data.length ≤ intMax) →
      C.mkTag (adBytes ad)
          ((chainBytes ct).take (chainLength ct - tagLen)) tagLen ≠
        (chainBytes ct).drop (chainLength ct - tagLen) →
      ∃ d, evpDecrypt C ct ad tagLen mode = .ok d ∧ d.plaintext = none) ∧
    (C.libOk = false → countShared ct = 0 → tagLen ≤ chainLength ct →
      evpDecrypt C ct ad tagLen mode = .error .lib) := by
  refine ⟨?_, ?_, ?_, ?_⟩
  · intro e h
    simp only [evpEncrypt] at h
    cases hlb : C.libOk with
    | false =>
      rw [hlb] at h
      simp only [Bool.not_false, if_pos] at h
      exact Or.inr (Except.error.inj h).symm
    | true =>
      rw [hlb] at h
      simp only [Bool.not_true, Bool.false_eq_true, if_false] at h
      cases hadr : adUpdates C ⟨0, [], [], [Ev.init]⟩ ad with
      | error e2 =>
        rw [hadr, except_bind_err] at h
        rw [← Except.error.inj h]
        exact adUpdates_error_classify C ad _ _ hadr
      | ok ctx1 =>
        rw [hadr, except_bind_ok] at h
        cases mode with
        | true =>
          simp only [if_true] at h
          cases henc : encFuncBlocks C ctx1 pt
              (if chainIsShared pt = true then
                [⟨List.replicate (chainLength pt) 0, tagLen, false⟩]
              else pt) with
          | error e2 =>
            rw [henc, except_bind_err] at h
            rw [← Except.error.inj h]
            exact encFuncBlocks_error_classify C _ _ _ _ henc
          | ok p =>
            rw [henc, except_bind_ok] at h
            split_ifs at h
        | false =>
          simp only [Bool.false_eq_true, if_false] at h
          cases henc : encFunc C ctx1 pt
              (if chainIsShared pt = true then
                [⟨List.replicate (chainLength pt) 0, tagLen, false⟩]
              else pt) with
          | error e2 =>
            rw [henc, except_bind_err] at h
            rw [← Except.error.inj h]
            exact encFunc_error_classify C _ _ _ _ henc
          | ok p =>
            rw [henc, except_bind_ok] at h
            split_ifs at h
  · intro hC hpt had
    obtain ⟨r, hr, _⟩ := evpEncrypt_spec C hC pt ad tagLen headroom mode hpt had
    exact ⟨r, hr⟩
  · intro hC hns hclen hct had hneq
    obtain ⟨d, hd, _, hnone, _⟩ :=
      evpDecrypt_spec C hC ct ad tagLen mode hns hclen hct had
    have hdl : ((chainBytes ct).drop (chainLength ct - tagLen)).length
        = tagLen := by
      rw [List.length_drop]
      rw [chainLength] at hclen ⊢
      omega
    refine ⟨d, hd, hnone ?_⟩
    rw [hdl]
    exact beq_false_of_ne hneq
  · intro hC hns hclen
    have hnl : ¬ chainLength ct < tagLen := by omega
    obtain ⟨_, ht2, _⟩ := trimChain_spec ct tagLen hclen
    simp only [evpDecrypt, if_neg hnl, trimBytes]
    rw [fixup_zero _ _ (by rw [ht2]; exact hns)]
    rw [hC]
    simp only [Bool.not_false, if_pos]

/-- Closed witness for C5 at concrete inputs: a successful encrypt, an
authentication failure reported as `none`, and a broken-library decrypt
reported as a thrown error. -/
theorem evp_error_semantics_witness :
    (∃ r, evpEncrypt testCipher [⟨[1, 2, 3], 0, false⟩] none 4 0 false
      = .ok r) ∧
    (∃ d, evpDecrypt testCipher
        [⟨[3, 8, 18, 28, 26, 173, 174, 175, 176], 0, false⟩]
        (some [⟨[9], 0, false⟩]) 4 false = .ok d ∧ d.plaintext = none) ∧
    evpDecrypt brokenCipher [⟨[1, 2, 3, 4, 5], 0, false⟩] none 4 false
      = .error .lib :=
  ⟨(evp_error_semantics testCipher [⟨[1, 2, 3], 0, false⟩]
      [⟨[1], 0, false⟩] none 4 0 false).2.1 rfl (fun _ => by decide)
      (fun a ha => by cases ha),
   (evp_error_semantics testCipher [⟨[1], 0, false⟩]
      [⟨[3, 8, 18, 28, 26, 173, 174, 175, 176], 0, false⟩]
      (some [⟨[9], 0, false⟩]) 4 0 false).2.2.1 rfl (by decide) (by decide)
      (fun _ => by decide) (fun a ha => by cases ha; decide) (by decide),
   (evp_error_semantics brokenCipher [⟨[1], 0, false⟩]
      [⟨[1, 2, 3, 4, 5], 0, false⟩] none 4 0 false).2.2.2 rfl (by decide)
      (by decide)⟩

theorem chunks16_length_sum (bs : List Nat) :
    ((chunks16 bs).map List.length).sum = bs.length := by
  rw [← List.length_flatten, chunks16_flatten]

theorem chunks16_written_sum (bs : List Nat) :
    ((chunks16 bs).map (fun c => 16 * (c.length / 16))).sum =
      16 * (bs.length / 16) := by
  induction bs using chunks16.induct with
  | case1 => rw [chunks16]; rfl
  | case2 b bs ih =>
    rw [chunks16, List.map_cons, List.sum_cons, ih]
    by_cases hlen : 16 ≤ (b :: bs).length
    · have h16 : ((b :: bs).take 16).length = 16 := by
        simp only [List.length_take]; omega
      have hrl : ((b :: bs).drop 16).length = (b :: bs).length - 16 := by simp
      rw [h16, hrl]
      omega
    · have hlt : ((b :: bs).take 16).length = (b :: bs).length := by
        simp only [List.length_take]; omega
      have hrl : ((b :: bs).drop 16).length = (b :: bs).length - 16 := by simp
      rw [hlt, hrl]
      omega

/-- Claim C6: in block mode both `encFuncBlocks` and `decFuncBlocks`
feed the input to the cipher in 16-byte chunks, so every update writes
at most its input length; the `numBuffered` counter — total input
minus total written — equals the width of the single trailing write
performed by the final operation, which is at most one 16-byte block
and lands in the output chain (directly in the remaining tail, or
through the cursor's stack-block push, with the same bytes either
way). -/
theorem blocks_sixteen_byte_discipline (C : Cipher) (hC : C.libOk = true)
    (adB : List Nat) (pt output ct output2 : Chain) (tagOut : List Nat) :
    encFuncBlocks C ⟨0, [], adB, []⟩ pt output =
      .ok (⟨chainLength pt, [], adB,
            (chunks16 (chainBytes pt)).map
              (fun c => Ev.upd c.length (16 * (c.length / 16))) ++
            [Ev.fin (chainLength pt - 16 * (chainLength pt / 16))]⟩,
           writeAt output 0 (applyKs C 0 (chainBytes pt))) ∧
    decFuncBlocks C ⟨0, [], adB, []⟩ ct output2 tagOut =
      .ok (C.mkTag adB (chainBytes ct) tagOut.length == tagOut,
           ⟨chainLength ct, [], adB,
            [Ev.setTag] ++ (chunks16 (chainBytes ct)).map
              (fun c => Ev.upd c.length (16 * (c.length / 16))) ++
            [Ev.fin (chainLength ct - 16 * (chainLength ct / 16))]⟩,
           if C.mkTag adB (chainBytes ct) tagOut.length == tagOut then
             writeAt output2 0 (applyKs C 0 (chainBytes ct))
           else
             writeAt output2 0 (applyKs C 0 ((chainBytes ct).take
               (16 * ((chainBytes ct).length / 16))))) ∧
    (∀ c ∈ chunks16 (chainBytes pt),
      c.length ≤ 16 ∧ 16 * (c.length / 16) ≤ c.length) ∧
    ((chunks16 (chainBytes pt)).map List.length).sum = chainLength pt ∧
    chainLength pt - 16 * (chainLength pt / 16) =
      ((chunks16 (chainBytes pt)).map List.length).sum -
        ((chunks16 (chainBytes pt)).map (fun c => 16 * (c.length / 16))).sum ∧
    chainLength pt - 16 * (chainLength pt / 16) ≤ 16 := by
  refine ⟨?_, ?_, ?_, ?_, ?_, ?_⟩
  · rw [encFuncBlocks_spec C hC _ rfl]
    simp [chainLength]
  · rw [decFuncBlocks_spec C hC _ rfl]
    simp [chainLength]
  · intro c hc
    exact ⟨chunks16_length_le _ c hc, by omega⟩
  · rw [chunks16_length_sum]
    rfl
  · rw [chunks16_length_sum, chunks16_written_sum, chainLength]
  · rw [chainLength]
    omega

/-- Closed witness for C6 at concrete block-mode inputs. -/
theorem blocks_sixteen_byte_discipline_witness :
    encFuncBlocks testCipher ⟨0, [], [9], []⟩
        [⟨List.range 20, 0, false⟩] [⟨List.range 20, 0, false⟩] =
      .ok (⟨chainLength [⟨List.range 20, 0, false⟩], [], [9],
            (chunks16 (chainBytes [⟨List.range 20, 0, false⟩])).map
              (fun c => Ev.upd c.length (16 * (c.length / 16))) ++
            [Ev.fin (chainLength [⟨List.range 20, 0, false⟩] -
              16 * (chainLength [⟨List.range 20, 0, false⟩] / 16))]⟩,
           writeAt [⟨List.range 20, 0, false⟩] 0
             (applyKs testCipher 0
               (chainBytes [⟨List.range 20, 0, false⟩]))) ∧
    chainLength [⟨List.range 20, 0, false⟩] -
        16 * (chainLength [⟨List.range 20, 0, false⟩] / 16) ≤ 16 := by
  have h := blocks_sixteen_byte_discipline testCipher rfl [9]
    [⟨List.range 20, 0, false⟩] [⟨List.range 20, 0, false⟩]
    [⟨List.range 20, 0, false⟩] [⟨List.range 20, 0, false⟩] [1, 2, 3, 4]
  exact ⟨h.1, h.2.2.2.2.2⟩

theorem fragChunks_length_sum (c : Chain) :
    ((fragChunks c).map List.length).sum = chainLength c := by
  rw [fragChunks, chainLength, chainBytes, List.length_flatten]

/-- Claim C7: on every decrypt whose ciphertext is at least `tagLen`
bytes, exactly the last `tagLen` bytes are trimmed into the tag buffer
before any decryption update runs, so the updates are fed exactly the
remaining `length − tagLen` bytes; the tag is handed to the cipher
(`SetTag`) before the update phase in block mode and after it in stream
mode, in both cases before `Final`. -/
theorem evpDecrypt_trim_and_setTag_order (C : Cipher) (hC : C.libOk = true)
    (ct : Chain) (ad : Option Chain) (tagLen : Nat) (mode : Bool)
    (hns : countShared ct = 0)
    (hlen : tagLen ≤ chainLength ct)
    (hct : mode = false → ∀ f ∈ ct, f.data.length ≤ intMax)
    (had : ∀ a, ad = some a → ∀ f ∈ a, f.data.length ≤ intMax) :
    (trimBytes ct tagLen).2 =
      (chainBytes ct).drop (chainLength ct - tagLen) ∧
    chainBytes (trimBytes ct tagLen).1 =
      (chainBytes ct).take (chainLength ct - tagLen) ∧
    chainLength (trimBytes ct tagLen).1 = chainLength ct - tagLen ∧
    (if mode then
      ((chunks16 ((chainBytes ct).take (chainLength ct - tagLen))).map
        List.length).sum
     else
      ((fragChunks (trimBytes ct tagLen).1).map List.length).sum) =
      chainLength ct - tagLen ∧
    ∃ d, evpDecrypt C ct ad tagLen mode = .ok d ∧
      d.evs = [Ev.init] ++
        ad.elim [] (fun a => a.map (fun _ => Ev.adUpd)) ++
        (if mode then
          [Ev.setTag] ++
            (chunks16 ((chainBytes ct).take
              (chainLength ct - tagLen))).map
              (fun c => Ev.upd c.length (16 * (c.length / 16))) ++
            [Ev.fin ((chainLength ct - tagLen) -
              16 * ((chainLength ct - tagLen) / 16))]
         else
          (fragChunks (trimChain ct tagLen)).map
            (fun c => Ev.upd c.length c.length) ++ [Ev.setTag, Ev.fin 0]) := by
  obtain ⟨ht1, ht2, ht3⟩ := trimChain_spec ct tagLen hlen
  obtain ⟨d, hd, _, _, hevs⟩ :=
    evpDecrypt_spec C hC ct ad tagLen mode hns hlen hct had
  refine ⟨rfl, ht1, ht3, ?_, d, hd, hevs⟩
  cases mode with
  | true =>
    rw [if_pos rfl, chunks16_length_sum, List.length_take, chainLength]
    omega
  | false =>
    rw [if_neg (by simp)]
    rw [show (trimBytes ct tagLen).1 = trimChain ct tagLen from rfl]
    rw [fragChunks_length_sum, ht3]

/-- Closed witness for C7 at a concrete block-mode input. -/
theorem evpDecrypt_trim_and_setTag_order_witness :
    chainBytes (trimBytes [(⟨[1, 2, 3, 4, 5, 6, 7], 0, false⟩ : Frag)] 4).1 =
      (chainBytes [(⟨[1, 2, 3, 4, 5, 6, 7], 0, false⟩ : Frag)]).take
        (chainLength [(⟨[1, 2, 3, 4, 5, 6, 7], 0, false⟩ : Frag)] - 4) ∧
    ∃ d, evpDecrypt testCipher [(⟨[1, 2, 3, 4, 5, 6, 7], 0, false⟩ : Frag)]
        (some [⟨[9], 0, false⟩]) 4 true = .ok d ∧
      d.evs = [Ev.init] ++
        (some [(⟨[9], 0, false⟩ : Frag)]).elim []
          (fun a => a.map (fun _ => Ev.adUpd)) ++
        ([Ev.setTag] ++
          (chunks16 ((chainBytes
            [(⟨[1, 2, 3, 4, 5, 6, 7], 0, false⟩ : Frag)]).take
              (chainLength [(⟨[1, 2, 3, 4, 5, 6, 7], 0, false⟩ : Frag)]
                - 4))).map
            (fun c => Ev.upd c.length (16 * (c.length / 16))) ++
          [Ev.fin ((chainLength [(⟨[1, 2, 3, 4, 5, 6, 7], 0, false⟩ : Frag)]
              - 4) -
            16 * ((chainLength [(⟨[1, 2, 3, 4, 5, 6, 7], 0, false⟩ : Frag)]
              - 4) / 16))]) := by
  have h := evpDecrypt_trim_and_setTag_order testCipher rfl
    [(⟨[1, 2, 3, 4, 5, 6, 7], 0, false⟩ : Frag)] (some [⟨[9], 0, false⟩]) 4
    true (by decide) (by decide) (fun hcon => by cases hcon)
    (fun a ha => by cases ha; decide)
  obtain ⟨_, h2, _, _, d, hd, hevs⟩ := h
  refine ⟨h2, d, hd, ?_⟩
  rw [hevs, if_pos rfl]

theorem setOnce_isSome {α : Type} (a : Option α) (b : α) :
    (Server.setOnce a (some b)).isSome := by
  cases a <;> simp [Server.setOnce]

theorem setOnce_isSome_of_isSome {α : Type} (a b : Option α)
    (hb : b.isSome) : (Server.setOnce a b).isSome := by
  cases a <;> cases b <;> simp_all [Server.setOnce]

/-- Claim C10: a default-constructed handshake `State` has phase
`Uninitialized` and every optional field — version, cipher, group,
sigScheme, pskType, pskMode, keyExchangeType, earlyDataType,
replayCacheResult, clientHandshakeSecret, alpn, clientClockSkew,
handshakeTime, earlyExporterMasterSecret, exporterMasterSecret,
unverifiedCertChain — unset. -/
theorem initialState_defaults :
    Server.initialState.state = Server.StateEnum.Uninitialized ∧
    Server.initialState.version = none ∧
    Server.initialState.cipher = none ∧
    Server.initialState.group = none ∧
    Server.initialState.sigScheme = none ∧
    Server.initialState.pskType = none ∧
    Server.initialState.pskMode = none ∧
    Server.initialState.keyExchangeType = none ∧
    Server.initialState.earlyDataType = none ∧
    Server.initialState.replayCacheResult = none ∧
    Server.initialState.clientHandshakeSecret = none ∧
    Server.initialState.alpn = none ∧
    Server.initialState.clientClockSkew = none ∧
    Server.initialState.handshakeTime = none ∧
    Server.initialState.earlyExporterMasterSecret = none ∧
    Server.initialState.exporterMasterSecret = none ∧
    Server.initialState.unverifiedCertChain = none := by
  decide

/-- Claim C8: each negotiated-parameter field (version, cipher, group,
sigScheme, pskType, pskMode, keyExchangeType, earlyDataType, alpn,
replayCacheResult) is `none` in the initial state, no transition of the
handshake machine overwrites such a field once it is `some` (so the
field is populated at most once and never cleared), and the
ClientHello transition from `ExpectingClientHello` — the deciding
transition — does populate it (for the optional negotiation outcomes,
whenever the outcome provides a value). -/
theorem state_populated_once :
    (Server.initialState.version = none ∧
     Server.initialState.cipher = none ∧
     Server.initialState.group = none ∧
     Server.initialState.sigScheme = none ∧
     Server.initialState.pskType = none ∧
     Server.initialState.pskMode = none ∧
     Server.initialState.keyExchangeType = none ∧
     Server.initialState.earlyDataType = none ∧
     Server.initialState.alpn = none ∧
     Server.initialState.replayCacheResult = none) ∧
    (∀ (s : Server.State) (e : Server.Event),
      (∀ v, s.version = some v → (Server.step s e).version = some v) ∧
      (∀ v, s.cipher = some v → (Server.step s e).cipher = some v) ∧
      (∀ v, s.group = some v → (Server.step s e).group = some v) ∧
      (∀ v, s.sigScheme = some v → (Server.step s e).sigScheme = some v) ∧
      (∀ v, s.pskType = some v → (Server.step s e).pskType = some v) ∧
      (∀ v, s.pskMode = some v → (Server.step s e).pskMode = some v) ∧
      (∀ v, s.keyExchangeType = some v →
        (Server.step s e).keyExchangeType = some v) ∧
      (∀ v, s.earlyDataType = some v →
        (Server.step s e).earlyDataType = some v) ∧
      (∀ v, s.alpn = some v → (Server.step s e).alpn = some v) ∧
      (∀ v, s.replayCacheResult = some v →
        (Server.step s e).replayCacheResult = some v)) ∧
    (∀ (s : Server.State) (o : Server.ChloOutcome),
      s.state = Server.StateEnum.ExpectingClientHello →
      ((Server.step s (Server.Event.clientHello o)).version.isSome ∧
       (Server.step s (Server.Event.clientHello o)).cipher.isSome ∧
       (Server.step s (Server.Event.clientHello o)).pskType.isSome ∧
       (Server.step s (Server.Event.clientHello o)).keyExchangeType.isSome ∧
       (Server.step s (Server.Event.clientHello o)).earlyDataType.isSome ∧
       (o.group.isSome →
         (Server.step s (Server.Event.clientHello o)).group.isSome) ∧
       (o.sigScheme.isSome →
         (Server.step s (Server.Event.clientHello o)).sigScheme.isSome) ∧
       (o.pskMode.isSome →
         (Server.step s (Server.Event.clientHello o)).pskMode.isSome) ∧
       (o.alpn.isSome →
         (Server.step s (Server.Event.clientHello o)).alpn.isSome) ∧
       (o.replayCacheResult.isSome →
         (Server.step s (Server.Event.clientHello o)).replayCacheResult.isSome))) := by
  refine ⟨by decide, ?_, ?_⟩
  · intro s e
    obtain ⟨st, ver, cip, grp, sig, pskt, pskm, kex, edt, rcr, chs, alp, ccs,
      htm, eems, ems, ucc, cc, rms, hrrl⟩ := s
    cases e <;> cases st <;>
      simp only [Server.step, Server.setOnce] <;>
      (try split) <;>
      simp_all
  · intro s o hs
    obtain ⟨st, ver, cip, grp, sig, pskt, pskm, kex, edt, rcr, chs, alp, ccs,
      htm, eems, ems, ucc, cc, rms, hrrl⟩ := s
    simp only at hs
    subst hs
    simp only [Server.step]
    refine ⟨setOnce_isSome _ _, setOnce_isSome _ _, setOnce_isSome _ _,
      setOnce_isSome _ _, setOnce_isSome _ _,
      fun h => setOnce_isSome_of_isSome _ _ h,
      fun h => setOnce_isSome_of_isSome _ _ h,
      fun h => setOnce_isSome_of_isSome _ _ h,
      fun h => setOnce_isSome_of_isSome _ _ h,
      fun h => setOnce_isSome_of_isSome _ _ h⟩

/-- Closed witness for C8: a transition does not overwrite an
already-populated version field. -/
theorem state_populated_once_witness :
    (Server.step { Server.initialState with version := some 3 }
      Server.Event.appWrite).version = some 3 :=
  (state_populated_once.2.1 { Server.initialState with version := some 3 }
    Server.Event.appWrite).1 3 rfl

end Fizz
